import Mathlib

/-!
Verification model of `mt_metrics_eval/tasks.py`.

Python strings are modelled as `List Char`, Python floats as `ℚ`
(exact rational arithmetic; the code's numeric identities are exact
up to floating tolerance), Python `assert` failures / raised errors as
`Option` results (`none` = the constructor or operation raises).
Python dictionaries are modelled as association lists with unique keys,
with insertion preserving first-insertion position and overwriting the
stored value, exactly as CPython's `dict` does.
-/

namespace MTME

/-- A Python string: a list of characters. -/
abbrev Str : Type := List Char

/-- First-match association-list lookup (Python `dict` lookup; the model
keeps keys unique, so first match equals Python's behaviour). -/
def alookup {α : Type} : List (Str × α) → Str → Option α
  | [], _ => none
  | p :: rest, k => if p.1 = k then some p.2 else alookup rest k

/-- Python `dict` insertion `d[k] = v`: overwrite in place if the key is
present, append at the end otherwise. -/
def pyDictInsert {α : Type} (d : List (Str × α)) (k : Str) (v : α) : List (Str × α) :=
  if (alookup d k).isSome then d.map (fun p => if p.1 = k then (k, v) else p)
  else d ++ [(k, v)]

/-- Build a Python `dict` from a sequence of key/value pairs
(`dict(pairs)`: later pairs overwrite earlier ones). -/
def pyDictOf {α : Type} (l : List (Str × α)) : List (Str × α) :=
  l.foldl (fun d p => pyDictInsert d p.1 p.2) []

/-- Map a fallible function over a list, failing as soon as one element
fails (a Python comprehension whose body may raise). -/
def omapM {α β : Type} (f : α → Option β) : List α → Option (List β)
  | [] => some []
  | a :: rest => (f a).bind (fun b => (omapM f rest).map (fun bs => b :: bs))

/-- Fold a fallible step over a list, failing as soon as one step fails
(a Python loop whose body may raise). -/
def ofoldlM {α β : Type} (f : β → α → Option β) : β → List α → Option β
  | b, [] => some b
  | b, a :: rest => (f b a).bind (fun b2 => ofoldlM f b2 rest)

/-- Split a string at every occurrence of a character satisfying `p`,
keeping empty segments (Python `s.split(sep)` behaviour for each single
separator occurrence). -/
def pySplit (p : Char → Bool) : Str → List Str
  | [] => [[]]
  | c :: rest =>
    if p c then [] :: pySplit p rest
    else
      match pySplit p rest with
      | [] => [[c]]
      | h :: t => (c :: h) :: t

/-- Python `s.split(sep)` for a one-character separator. -/
def pySplitOn (sep : Char) (s : Str) : List Str :=
  pySplit (fun c => c = sep) s

/-- The characters Python's `str.split()` (equivalently `str.isspace`)
recognises as whitespace: U+0009-U+000D, U+001C-U+001F, the space,
U+0085, U+00A0, U+1680, U+2000-U+200A, U+2028, U+2029, U+202F, U+205F
and U+3000. -/
def pyWsChars : List Char :=
  [Char.ofNat 9, Char.ofNat 10, Char.ofNat 11, Char.ofNat 12, Char.ofNat 13,
   Char.ofNat 28, Char.ofNat 29, Char.ofNat 30, Char.ofNat 31, Char.ofNat 32,
   Char.ofNat 133, Char.ofNat 160, Char.ofNat 5760, Char.ofNat 8192,
   Char.ofNat 8193, Char.ofNat 8194, Char.ofNat 8195, Char.ofNat 8196,
   Char.ofNat 8197, Char.ofNat 8198, Char.ofNat 8199, Char.ofNat 8200,
   Char.ofNat 8201, Char.ofNat 8202, Char.ofNat 8232, Char.ofNat 8233,
   Char.ofNat 8239, Char.ofNat 8287, Char.ofNat 12288]

/-- Python's whitespace test, as used by `str.split()` with no
separator argument. -/
def isPyWs (c : Char) : Bool := pyWsChars.contains c

/-- Python `s.split()` with no argument: split on whitespace runs and
drop empty segments. -/
def pySplitWs (s : Str) : List Str :=
  (pySplit isPyWs s).filter (fun seg => seg ≠ [])

/-- Join a list of strings with a separator (Python `sep.join(l)`). -/
def joinSep (sep : Str) : List Str → Str
  | [] => []
  | [s] => s
  | s :: rest => s ++ sep ++ joinSep sep rest

/-- Decimal digits of a natural number, as characters. -/
def natStr (n : ℕ) : Str := Nat.toDigits 10 n

/-- Python `str` of an integer. -/
def intStr (i : ℤ) : Str :=
  match i with
  | Int.ofNat n => natStr n
  | Int.negSucc n => '-' :: natStr (n + 1)

/-- Decimal expansion of the fraction `n / d` (with `n < d`), one digit
per step, stopping when the remainder is zero or the fuel runs out. -/
def fracDigits : ℕ → ℕ → ℕ → Str
  | 0, _, _ => []
  | fuel + 1, n, d =>
    if n = 0 then [] else
      let n10 := n * 10
      Char.ofNat (48 + n10 / d) :: fracDigits fuel (n10 % d) d

/-- Python `str` of a float, for the terminating-decimal rationals the
model uses: sign, integer part, decimal point, fractional digits
(`str(2.0) = '2.0'`, `str(0.05) = '0.05'`). -/
def ratStr (q : ℚ) : Str :=
  let sign : Str := if q.num < 0 then [ '-' ] else []
  let na := q.num.natAbs
  let ds := fracDigits 40 (na % q.den) q.den
  sign ++ natStr (na / q.den) ++ '.' :: (if ds = [] then [ '0' ] else ds)

/-- A rational given directly by numerator and denominator, so that its
fields are transparent to kernel evaluation. -/
def qv (n : ℤ) (d : ℕ) (h1 : d ≠ 0) (h2 : n.natAbs.Coprime d) : ℚ := ⟨n, d, h1, h2⟩

/-- The `{` character. -/
def lbrace : Char := Char.ofNat 123

/-- The `}` character. -/
def rbrace : Char := Char.ofNat 125

/-- The `'` character. -/
def squote : Char := Char.ofNat 39

/-- Python `repr` of a simple string: surround with single quotes. -/
def pyQuote (s : Str) : Str := squote :: s ++ [squote]

/-- Join with `", "`, as Python does when rendering containers. -/
def joinCS (l : List Str) : Str := joinSep ((", ").data) l

/-- Python `str` of a list, given the renderings of its elements. -/
def pyListStr (elems : List Str) : Str := '[' :: joinCS elems ++ [']']

/-- Python `str` of a set of strings (`set()` when empty). -/
def pySetStr (elems : List Str) : Str :=
  if elems.isEmpty then ("set()").data
  else lbrace :: joinCS (elems.map pyQuote) ++ [rbrace]

/-- Python `str` of a string-keyed dict whose values are stored already
rendered (`repr`) by the model. -/
def pyDictStr (l : List (Str × Str)) : Str :=
  lbrace :: joinCS (l.map (fun p => pyQuote p.1 ++ ':' :: ' ' :: p.2)) ++ [rbrace]

/-- Python `str` of a boolean. -/
def pyBoolStr (b : Bool) : Str := if b then ("True").data else ("False").data

/-- Python `str` of an optional string (`None` when absent). -/
def pyOptStr : Option Str → Str
  | none => ("None").data
  | some s => s

/-- Modelled from the spec: per-language metadata of the evaluation-set
store (`meta_info` module, not under `src/`): the standard gold scores
per granularity level and the standard reference. -/
structure LangInfo where
  std_gold : List (Str × Str)
  std_ref : Str
deriving DecidableEq

/-- Modelled from the spec: the `meta_info.DATA` table, mapping a test
set to its language pairs and their metadata. -/
abbrev MetaData : Type := List (Str × List (Str × LangInfo))

/-- Look up a language pair of a test set in the metadata table. -/
def lookupLang (m : MetaData) (ts l : Str) : Option LangInfo :=
  (alookup m ts).bind (fun langs => alookup langs l)

/-- `meta_info.DATA[test_set][lang].std_gold[level]` (`Task._StdGold`). -/
def stdGold (m : MetaData) (ts l lvl : Str) : Option Str :=
  (lookupLang m ts l).bind (fun li => alookup li.std_gold lvl)

/-- `{meta_info.DATA[test_set][lang].std_ref}` (`Task._StdRefs`). -/
def stdRefs (m : MetaData) (ts l : Str) : Option (List Str) :=
  (lookupLang m ts l).map (fun li => [li.std_ref])

/-- The `gold` field: `None`, a single name, or a list of names. -/
inductive GoldVal : Type where
  | nullv : GoldVal
  | strv : Str → GoldVal
  | listv : List Str → GoldVal
deriving DecidableEq

/-- The `refs`/`close_refs` fields: `None`, a set of names, or a list of
sets of names (sets modelled as lists). -/
inductive RefsVal : Type where
  | nullv : RefsVal
  | setv : List Str → RefsVal
  | listv : List (List Str) → RefsVal
deriving DecidableEq

/-- Python `len` of a `gold` value (`len(None)` raises). -/
def goldLen : GoldVal → Option ℕ
  | GoldVal.nullv => none
  | GoldVal.strv s => some s.length
  | GoldVal.listv l => some l.length

/-- Python `len` of a `refs` value (`len(None)` raises). -/
def refsLen : RefsVal → Option ℕ
  | RefsVal.nullv => none
  | RefsVal.setv l => some l.length
  | RefsVal.listv l => some l.length

/-- The `Task` dataclass of `tasks.py`: one fully specified
metric-evaluation configuration. Field order is the declaration order of
the source. -/
structure Task : Type where
  test_set : Str
  lang : Str
  domain : Option Str
  level : Str
  human : Bool
  avg_by : Str
  corr_fcn : Str
  k : ℤ
  gold : GoldVal
  refs : RefsVal
  close_refs : RefsVal
  use_outliers : Bool
  primary : Bool
  pval : ℚ
  block_size : ℤ
  early_min : ℚ
  early_max : ℚ
  replace_nans_with_zeros : Bool
  perm_test : Str
  corr_fcn_args : Option (List (Str × Str))
deriving DecidableEq

/-- The keys of `CORRELATION_FUNCTIONS`. -/
def corrNames : List Str :=
  [("pearson").data, ("kendall").data, ("spearman").data, ("accuracy").data,
   ("KendallLike").data, ("KendallVariants").data, ("KendallWithTiesOpt").data]

/-- `self.lang.split(',')`. -/
def Task.subLangs (t : Task) : List Str := pySplitOn ',' t.lang

/-- Comparison of argument pairs by key (lexicographic character order,
as Python compares strings). -/
def argLE (p q : Str × Str) : Prop := p.1 ≤ q.1

/-- Strict comparison of argument pairs by key. -/
def argLT (p q : Str × Str) : Prop := p.1 < q.1

instance : DecidableRel argLE := fun p q => inferInstanceAs (Decidable (p.1 ≤ q.1))

instance : IsTotal (Str × Str) argLE := ⟨fun p q => le_total p.1 q.1⟩

instance : IsTrans (Str × Str) argLE := ⟨fun _ _ _ h1 h2 => le_trans h1 h2⟩

instance : IsAntisymm (Str × Str) argLT :=
  ⟨fun _ _ h1 h2 => absurd h2 (lt_asymm h1)⟩

/-- `dict(sorted(corr_fcn_args.items()))`: sort the argument pairs by
key (keys are unique, so Python's tuple comparison never reaches the
values). -/
def sortArgs (l : List (Str × Str)) : List (Str × Str) :=
  List.insertionSort argLE l

/-- The mode-dependent part of `Task.__post_init__`: validate the
language/level arity for the selected mode and fill in default
`gold`/`refs`/`close_refs` values. Returns `none` when an `assert` in the
source fails (or a metadata lookup raises `KeyError`). -/
def fillGRC (m : MetaData) (t : Task) : Option (GoldVal × RefsVal × RefsVal) :=
  let sub_langs := t.subLangs
  if t.corr_fcn = ("accuracy").data then
    if t.level ≠ ("sys").data then none
    else if ¬ sub_langs.all (fun sl => (lookupLang m t.test_set sl).isSome) then none
    else do
      let gold ← match t.gold with
        | GoldVal.nullv =>
          (omapM (fun sl => stdGold m t.test_set sl t.level) sub_langs).map GoldVal.listv
        | g => some g
      let refs ← match t.refs with
        | RefsVal.nullv =>
          (omapM (fun sl => stdRefs m t.test_set sl) sub_langs).map RefsVal.listv
        | r => some r
      let close ← match t.close_refs with
        | RefsVal.nullv => some (RefsVal.listv (sub_langs.map (fun _ => [])))
        | c => some c
      let gl ← goldLen gold
      let rl ← refsLen refs
      let cl ← refsLen close
      if gl = sub_langs.length ∧ rl = sub_langs.length ∧ cl = sub_langs.length then
        some (gold, refs, close)
      else none
  else
    if sub_langs.length ≠ 1 then none
    else if (lookupLang m t.test_set t.lang).isNone then none
    else
      match stdGold m t.test_set t.lang t.level with
      | none => none
      | some sg =>
        let gold := match t.gold with
          | GoldVal.nullv => GoldVal.strv sg
          | g => g
        let refs := match t.refs with
          | RefsVal.nullv =>
            RefsVal.setv (match stdRefs m t.test_set t.lang with
              | some rs => rs
              | none => [])
          | r => r
        let close := match t.close_refs with
          | RefsVal.nullv => RefsVal.setv []
          | c => c
        match gold, refs, close with
        | GoldVal.strv _, RefsVal.setv _, RefsVal.setv _ => some (gold, refs, close)
        | _, _, _ => none

/-- `Task.__post_init__`: check the test set and the correlation
function, validate the mode-dependent fields, fill in defaults and put
`corr_fcn_args` in canonical sorted order. `none` models a failed
`assert` (the constructor raises). -/
def Task.postInit (m : MetaData) (t : Task) : Option Task :=
  if (alookup m t.test_set).isNone then none
  else if t.corr_fcn ∉ corrNames then none
  else
    match fillGRC m t with
    | none => none
    | some (g, r, c) =>
      some { t with gold := g, refs := r, close_refs := c,
                    corr_fcn_args := some (sortArgs (t.corr_fcn_args.getD [])) }

/-- `Attributes()`: the canonical attribute order (the dataclass
declaration order). -/
def Attributes : List Str :=
  [("test_set").data, ("lang").data, ("domain").data, ("level").data, ("human").data,
   ("avg_by").data, ("corr_fcn").data, ("k").data, ("gold").data, ("refs").data,
   ("close_refs").data, ("use_outliers").data, ("primary").data, ("pval").data,
   ("block_size").data, ("early_min").data, ("early_max").data,
   ("replace_nans_with_zeros").data, ("perm_test").data, ("corr_fcn_args").data]

/-- Python `str` of a `gold` value. -/
def goldStr : GoldVal → Str
  | GoldVal.nullv => ("None").data
  | GoldVal.strv s => s
  | GoldVal.listv l => pyListStr (l.map pyQuote)

/-- Python `str` of a `refs` value. -/
def refsStr : RefsVal → Str
  | RefsVal.nullv => ("None").data
  | RefsVal.setv l => pySetStr l
  | RefsVal.listv l => pyListStr (l.map pySetStr)

/-- Python `str` of the `corr_fcn_args` field. -/
def argsStr : Option (List (Str × Str)) → Str
  | none => ("None").data
  | some l => pyDictStr l

/-- `f'{getattr(self, attr)}'`: the textual form of an attribute value. -/
def Task.rawVal (t : Task) (a : Str) : Str :=
  if a = ("test_set").data then t.test_set
  else if a = ("lang").data then t.lang
  else if a = ("domain").data then pyOptStr t.domain
  else if a = ("level").data then t.level
  else if a = ("human").data then pyBoolStr t.human
  else if a = ("avg_by").data then t.avg_by
  else if a = ("corr_fcn").data then t.corr_fcn
  else if a = ("k").data then intStr t.k
  else if a = ("gold").data then goldStr t.gold
  else if a = ("refs").data then refsStr t.refs
  else if a = ("close_refs").data then refsStr t.close_refs
  else if a = ("use_outliers").data then pyBoolStr t.use_outliers
  else if a = ("primary").data then pyBoolStr t.primary
  else if a = ("pval").data then ratStr t.pval
  else if a = ("block_size").data then intStr t.block_size
  else if a = ("early_min").data then ratStr t.early_min
  else if a = ("early_max").data then ratStr t.early_max
  else if a = ("replace_nans_with_zeros").data then pyBoolStr t.replace_nans_with_zeros
  else if a = ("perm_test").data then t.perm_test
  else if a = ("corr_fcn_args").data then argsStr t.corr_fcn_args
  else []

/-- `Task.StrVal`: the attribute's textual form with spaces removed. -/
def Task.StrVal (t : Task) (a : Str) : Str :=
  (t.rawVal a).filter (fun c => c ≠ ' ')

/-- `Task.name`: the canonical `attr=value` identity string, joined with
single spaces in canonical attribute order. -/
def Task.name (t : Task) : Str :=
  joinSep [ ' ' ] (Attributes.map (fun a => a ++ '=' :: t.StrVal a))

/-- `TaskResults`: the outcome of running one task. `corr_ranks` maps a
metric to its (correlation, cluster rank) pair in descending-correlation
order; `matrix` is the pairwise significance matrix. -/
structure TaskResults : Type where
  name : Str
  pval : ℚ
  corr_ranks : List (Str × ℚ × ℚ)
  matrix : List (List ℚ)
deriving DecidableEq

/-- `TaskResults.metrics`: metric names in stored order. -/
def TaskResults.metrics (r : TaskResults) : List Str :=
  r.corr_ranks.map (fun p => p.1)

/-- `TaskResults.Rank` for a metric name known to be present. -/
def TaskResults.RankOf (r : TaskResults) (m : Str) : ℚ :=
  ((alookup r.corr_ranks m).getD (0, 0)).2

/-- `TaskResults.attr_vals`: parse the name back into an attribute/value
dict: split on whitespace, split each chunk at `=` (`none` models the
`ValueError` when a chunk does not have exactly one `=`). -/
def attrVals (name : Str) : Option (List (Str × Str)) :=
  (omapM (fun av =>
    match pySplitOn '=' av with
    | [a, v] => some (a, v)
    | _ => none) (pySplitWs name)).map pyDictOf

/-- `result.attr_vals[attr]` (`none` models `KeyError`/`ValueError`). -/
def attrValLookup (name : Str) (a : Str) : Option Str :=
  (attrVals name).bind (fun d => alookup d a)

/-- The structural equality `TaskResults.__eq__`: same name, threshold,
rank mapping and (numerically) the same matrix. -/
def TaskResults.eqv (r1 r2 : TaskResults) : Prop :=
  r1.name = r2.name ∧ r1.pval = r2.pval ∧ r1.corr_ranks = r2.corr_ranks ∧ r1.matrix = r2.matrix

/-- The JSON documents `TaskResults.Write`/`Read` exchange. -/
inductive Json : Type where
  | str : Str → Json
  | num : ℚ → Json
  | arr : List Json → Json
  | obj : List (Str × Json) → Json

/-- `TaskResults.Write`: serialize as the 4-tuple
`(name, pval, corr_ranks, matrix.tolist())`. -/
def TaskResults.Write (r : TaskResults) : Json :=
  Json.arr [Json.str r.name, Json.num r.pval,
    Json.obj (r.corr_ranks.map (fun p => (p.1, Json.arr [Json.num p.2.1, Json.num p.2.2]))),
    Json.arr (r.matrix.map (fun row => Json.arr (row.map Json.num)))]

/-- `TaskResults.Read`: parse the same 4-tuple shape back
(`none` models a malformed document, on which `json.load`/unpacking
raises). -/
def TaskResults.Read (j : Json) : Option TaskResults :=
  match j with
  | Json.arr [Json.str name, Json.num pval, Json.obj cr, Json.arr mat] => do
    let ranks ← omapM (fun p =>
      match p.2 with
      | Json.arr [Json.num c, Json.num k] => some (p.1, (c, k))
      | _ => none) cr
    let rows ← omapM (fun row =>
      match row with
      | Json.arr es => omapM (fun e =>
          match e with
          | Json.num q => some q
          | _ => none) es
      | _ => none) mat
    some ⟨name, pval, ranks, rows⟩
  | _ => none

/-- A value usable in a `TaskSet` attribute-combination dictionary: one
of the possible `Task` field types. -/
inductive AttrVal : Type where
  | vstr : Str → AttrVal
  | vbool : Bool → AttrVal
  | vint : ℤ → AttrVal
  | vrat : ℚ → AttrVal
  | vostr : Option Str → AttrVal
  | vgold : GoldVal → AttrVal
  | vrefs : RefsVal → AttrVal
  | vargs : Option (List (Str × Str)) → AttrVal
deriving DecidableEq

/-- Set one keyword argument of the `Task` constructor. A name/value
pair whose type does not match the field is ignored (the model only
receives well-typed combinations). -/
def Task.setAttr (t : Task) (a : Str) (v : AttrVal) : Task :=
  if a = ("test_set").data then match v with | AttrVal.vstr s => { t with test_set := s } | _ => t
  else if a = ("lang").data then match v with | AttrVal.vstr s => { t with lang := s } | _ => t
  else if a = ("domain").data then match v with | AttrVal.vostr s => { t with domain := s } | _ => t
  else if a = ("level").data then match v with | AttrVal.vstr s => { t with level := s } | _ => t
  else if a = ("human").data then match v with | AttrVal.vbool b => { t with human := b } | _ => t
  else if a = ("avg_by").data then match v with | AttrVal.vstr s => { t with avg_by := s } | _ => t
  else if a = ("corr_fcn").data then match v with | AttrVal.vstr s => { t with corr_fcn := s } | _ => t
  else if a = ("k").data then match v with | AttrVal.vint i => { t with k := i } | _ => t
  else if a = ("gold").data then match v with | AttrVal.vgold g => { t with gold := g } | _ => t
  else if a = ("refs").data then match v with | AttrVal.vrefs r => { t with refs := r } | _ => t
  else if a = ("close_refs").data then match v with | AttrVal.vrefs r => { t with close_refs := r } | _ => t
  else if a = ("use_outliers").data then match v with | AttrVal.vbool b => { t with use_outliers := b } | _ => t
  else if a = ("primary").data then match v with | AttrVal.vbool b => { t with primary := b } | _ => t
  else if a = ("pval").data then match v with | AttrVal.vrat q => { t with pval := q } | _ => t
  else if a = ("block_size").data then match v with | AttrVal.vint i => { t with block_size := i } | _ => t
  else if a = ("early_min").data then match v with | AttrVal.vrat q => { t with early_min := q } | _ => t
  else if a = ("early_max").data then match v with | AttrVal.vrat q => { t with early_max := q } | _ => t
  else if a = ("replace_nans_with_zeros").data then match v with | AttrVal.vbool b => { t with replace_nans_with_zeros := b } | _ => t
  else if a = ("perm_test").data then match v with | AttrVal.vstr s => { t with perm_test := s } | _ => t
  else if a = ("corr_fcn_args").data then match v with | AttrVal.vargs x => { t with corr_fcn_args := x } | _ => t
  else t

/-- Apply a list of keyword arguments to a task record. -/
def applyPairs (t : Task) (ps : List (Str × AttrVal)) : Task :=
  ps.foldl (fun u p => u.setAttr p.1 p.2) t

/-- The dataclass defaults of `Task`. -/
def defaultTask : Task :=
  { test_set := ("wmt22").data, lang := ("en-de").data, domain := none,
    level := ("sys").data, human := true, avg_by := ("none").data,
    corr_fcn := ("pearson").data, k := 1000, gold := GoldVal.nullv,
    refs := RefsVal.nullv, close_refs := RefsVal.nullv, use_outliers := false,
    primary := true, pval := qv 1 20 (by decide) (by decide), block_size := 100,
    early_min := qv 1 50 (by decide) (by decide),
    early_max := qv 1 2 (by decide) (by decide),
    replace_nans_with_zeros := false, perm_test := ("scores").data,
    corr_fcn_args := none }

/-- `itertools.product` over a list of value lists, in Python's
iteration order (rightmost list varies fastest). -/
def cartProd : List (List AttrVal) → List (List AttrVal)
  | [] => [[]]
  | l :: ls => l.flatMap (fun v => (cartProd ls).map (fun c => v :: c))

/-- `TaskSet.__init__`: one `Task` per complete attribute/value
combination of `attr_combs`, with the fixed keyword arguments `extra`
merged into each; zero tasks when `attr_combs` is empty. `none` models a
combination whose `Task` constructor raises. -/
def TaskSet.init (m : MetaData) (attr_combs : List (Str × List AttrVal))
    (extra : List (Str × AttrVal)) : Option (List Task) :=
  if attr_combs.isEmpty then some []
  else
    omapM (fun vals =>
      Task.postInit m (applyPairs defaultTask (((attr_combs.map (fun p => p.1)).zip vals) ++ extra)))
      (cartProd (attr_combs.map (fun p => p.2)))

/-- Append a result to the group keyed by `v`, creating the group at the
end if it is new (`TaskSetResults.SplitByAttr`'s dict-of-lists update). -/
def addToGroup (gs : List (Str × List TaskResults)) (v : Str) (r : TaskResults) :
    List (Str × List TaskResults) :=
  if (alookup gs v).isSome then gs.map (fun p => if p.1 = v then (p.1, p.2 ++ [r]) else p)
  else gs ++ [(v, [r])]

/-- `TaskSetResults.SplitByAttr`: partition the results by the textual
value of `attr` recovered from each result's name, preserving insertion
order (`none` models a name that fails to parse or lacks the attribute). -/
def SplitByAttr (rs : List TaskResults) (attr : Str) :
    Option (List (Str × List TaskResults)) :=
  ofoldlM (fun gs r => (attrValLookup r.name attr).map (fun v => addToGroup gs v r)) [] rs

/-- `TaskSetResults.AssignWeights`: distribute `total_wt` evenly across
the values of the first attribute, recursing on the rest; with no
attributes left, weight the remaining results uniformly (`none` models
the division by zero on an empty result list, or a name that fails to
parse). The returned weights are in the order of the `weights` dict,
keyed by result name. -/
def AssignWeights (rs : List TaskResults) : List Str → ℚ → Option (List ℚ)
  | [], total_wt =>
    if rs.length = 0 then none
    else some (List.replicate rs.length (total_wt / rs.length))
  | a :: rest, total_wt => do
    let init := rs.foldl (fun d r => pyDictInsert d r.name (0 : ℚ)) []
    let gs ← SplitByAttr rs a
    let final ← ofoldlM (fun d p => do
      let sw ← AssignWeights p.2 rest (total_wt / gs.length)
      pure ((p.2.zip sw).foldl (fun d2 q => pyDictInsert d2 q.1.name q.2) d)) init gs
    pure (final.map (fun p => p.2))

/-- The weight `AssignWeights` gives to one particular result: `total_wt`
divided by the partition count at every level of the attribute
hierarchy, down to the uniform share of the result's leaf partition
(0 when a lookup the source would raise on fails). -/
def resultWeight (rs : List TaskResults) : List Str → ℚ → TaskResults → ℚ
  | [], total_wt, _ => total_wt / rs.length
  | a :: rest, total_wt, r =>
    match SplitByAttr rs a with
    | none => 0
    | some gs =>
      match attrValLookup r.name a with
      | none => 0
      | some v =>
        match alookup gs v with
        | none => 0
        | some g => resultWeight g rest (total_wt / gs.length) r

/-- Append one rank contribution to a metric's list in the `ranks` dict
of `AverageRanks`. -/
def dictAppend (d : List (Str × List ℚ)) (k : Str) (v : ℚ) : List (Str × List ℚ) :=
  if (alookup d k).isSome then d.map (fun p => if p.1 = k then (p.1, p.2 ++ [v]) else p)
  else d ++ [(k, [v])]

/-- Comparison of the output entries of `AverageRanks` by average rank
(Python's `sorted(..., key=lambda x: x[1])`). -/
def valLE (p q : Str × ℚ) : Prop := p.2 ≤ q.2

instance : DecidableRel valLE := fun p q => inferInstanceAs (Decidable (p.2 ≤ q.2))

instance : IsTotal (Str × ℚ) valLE := ⟨fun p q => le_total p.2 q.2⟩

instance : IsTrans (Str × ℚ) valLE := ⟨fun _ _ _ h1 h2 => le_trans h1 h2⟩

/-- `TaskSetResults.AverageRanks`: weighted rank sums of the metrics,
keeping only metrics that appear in every result, sorted by increasing
average rank (uniform `1/len` weights when none are supplied; `none`
models the division by zero on an empty result list). -/
def AverageRanks (rs : List TaskResults) (weights : Option (List ℚ)) :
    Option (List (Str × ℚ)) := do
  let ws ← match weights with
    | none =>
      if rs.length = 0 then none
      else some (List.replicate rs.length ((1 : ℚ) / rs.length))
    | some ws => some ws
  let ranks := (rs.zip ws).foldl (fun d p =>
    p.1.metrics.foldl (fun d2 mt => dictAppend d2 mt (p.1.RankOf mt * p.2)) d) []
  let kept := (ranks.filter (fun p => p.2.length = rs.length)).map (fun p => (p.1, p.2.sum))
  pure (List.insertionSort valLE kept)

/-- The `ranks` dict built by `AverageRanks` from a flat list `P` of
(metric, contribution) pairs: keys are unique, each metric's list holds
exactly its contributions in order, and a key is present exactly for
the metrics occurring in `P`. -/
def RanksInv (P : List (Str × ℚ)) (d : List (Str × List ℚ)) : Prop :=
  (d.map (fun p => p.1)).Nodup ∧
  (∀ p ∈ d, p.2 = (P.filter (fun c => c.1 = p.1)).map (fun c => c.2)) ∧
  (∀ k, (alookup d k).isSome ↔ k ∈ P.map (fun c => c.1))

/-- A value string that parses back intact from a task name: it contains
no `=` and no whitespace character. -/
def cleanVal (v : Str) : Prop := ('=' ∉ v) ∧ ∀ c ∈ v, isPyWs c = false

/-- The partition produced by `SplitByAttr` from the results `pre`: keys
are unique, each group is the subsequence of `pre` carrying that
attribute value (all results preserved, in order), a key is present
exactly for the values occurring in `pre`, and the groups' contents are
a permutation of `pre`. -/
def GroupsInv (attr : Str) (pre : List TaskResults) (gs : List (Str × List TaskResults)) : Prop :=
  (gs.map (fun p => p.1)).Nodup ∧
  (∀ p ∈ gs, p.2 = pre.filter (fun r => attrValLookup r.name attr = some p.1)) ∧
  (∀ v, (alookup gs v).isSome ↔ ∃ r ∈ pre, attrValLookup r.name attr = some v) ∧
  (gs.flatMap (fun p => p.2)).Perm pre

/-- Modelled from the spec: a concrete `meta_info.DATA` table for the
spec's scenarios — test set `wmt22` with language pairs `en-de` and
`de-en`, each with standard gold labels per level and a standard
reference (the spec requires `Task(test_set='wmt22', lang='en-de',
level='sys', corr_fcn='pearson')` to construct successfully with
defaults filled from this table). -/
def cMeta : MetaData :=
  [(("wmt22").data,
    [(("en-de").data,
      ⟨[(("sys").data, ("wmt-z").data), (("seg").data, ("mqm").data)], ("refA").data⟩),
     (("de-en").data,
      ⟨[(("sys").data, ("wmt-z").data), (("seg").data, ("mqm").data)], ("refB").data⟩)])]

/-- A concrete result whose name carries `lang=en-de`. -/
def cR1 : TaskResults :=
  ⟨("lang=en-de").data, qv 1 20 (by decide) (by decide),
   [(("m1").data, (1, 1)), (("m2").data, (2, 2))], [[0, 1], [1, 0]]⟩

/-- A concrete result whose name carries `lang=de-en`. -/
def cR2 : TaskResults :=
  ⟨("lang=de-en").data, qv 1 20 (by decide) (by decide),
   [(("m1").data, (1, 2))], [[0]]⟩

/-- `TaskResults.__init__` from a task and the backend's
`(corr_ranks, matrix)` output: the result carries the task's canonical
name and threshold. -/
def TaskResults.fromTask (t : Task) (corr_ranks : List (Str × ℚ × ℚ))
    (matrix : List (List ℚ)) : TaskResults :=
  ⟨Task.name t, t.pval, corr_ranks, matrix⟩

instance cleanVal.dec : DecidablePred cleanVal := fun v =>
  inferInstanceAs (Decidable (('=' ∉ v) ∧ ∀ c ∈ v, isPyWs c = false))

/-- The default task after construction (defaults filled in from
`cMeta`). -/
def cT0 : Task :=
  { defaultTask with gold := GoldVal.strv (("wmt-z").data),
                     refs := RefsVal.setv [("refA").data],
                     close_refs := RefsVal.setv [],
                     corr_fcn_args := some [] }

/-- A raw task whose `avg_by` value contains a tab character (no `=`),
accepted by the constructor since `avg_by` is never validated. -/
def cT9bad : Task := { defaultTask with avg_by := [ 'a', '\t', 'b' ] }

/-- `cT9bad` after construction. -/
def cT9 : Task :=
  { cT9bad with gold := GoldVal.strv (("wmt-z").data),
                refs := RefsVal.setv [("refA").data],
                close_refs := RefsVal.setv [],
                corr_fcn_args := some [] }

/-- The default task in accuracy mode (single language pair) after
construction. -/
def cT2acc : Task :=
  { defaultTask with corr_fcn := ("accuracy").data,
                     gold := GoldVal.listv [("wmt-z").data],
                     refs := RefsVal.listv [[("refA").data]],
                     close_refs := RefsVal.listv [[]],
                     corr_fcn_args := some [] }

/-- A raw task with correlation-function arguments inserted as `b, a`. -/
def cT1a : Task :=
  { defaultTask with
      corr_fcn_args := some [(("b").data, ("1").data), (("a").data, ("2").data)] }

/-- A raw task with the same arguments inserted as `a, b`. -/
def cT1b : Task :=
  { defaultTask with
      corr_fcn_args := some [(("a").data, ("2").data), (("b").data, ("1").data)] }

/-- The common constructed form of `cT1a` and `cT1b`. -/
def cT1r : Task :=
  { cT0 with
      corr_fcn_args := some [(("a").data, ("2").data), (("b").data, ("1").data)] }

/-- An attribute-combination mapping with two distinct `lang` values. -/
def cCombs : List (Str × List AttrVal) :=
  [(("lang").data, [AttrVal.vstr (("en-de").data), AttrVal.vstr (("de-en").data)])]

/-- An attribute-combination mapping whose value list repeats a value. -/
def cDup : List (Str × List AttrVal) :=
  [(("lang").data, [AttrVal.vstr (("en-de").data), AttrVal.vstr (("en-de").data)])]

theorem alookup_isSome_iff {α : Type} [Nonempty α] (l : List (Str × α)) (k : Str) :
    (alookup l k).isSome ↔ k ∈ l.map (fun p => p.1) := by
  induction l with
  | nil => simp [alookup]
  | cons p rest ih =>
    rw [List.map_cons, List.mem_cons]
    by_cases h : p.1 = k
    · simp [alookup, h]
    · rw [alookup, if_neg h, ih]
      constructor
      · exact Or.inr
      · rintro (h1 | h1)
        · exact absurd h1.symm h
        · exact h1

theorem alookup_map_pair {α : Type} [Nonempty α] (l : List Str) (f : Str → α) (k : Str) (hk : k ∈ l) :
    alookup (l.map (fun a => (a, f a))) k = some (f k) := by
  induction l with
  | nil => cases hk
  | cons a rest ih =>
    by_cases h : a = k
    · subst h; simp [alookup]
    · rcases List.mem_cons.mp hk with h1 | h1
      · exact absurd h1.symm h
      · simpa [alookup, h] using ih h1

theorem pyDictInsert_notMem {α : Type} [Nonempty α] (d : List (Str × α)) (k : Str) (v : α)
    (h : k ∉ d.map (fun p => p.1)) : pyDictInsert d k v = d ++ [(k, v)] := by
  have h2 : ¬ (alookup d k).isSome := fun hs => h ((alookup_isSome_iff d k).mp hs)
  simp [pyDictInsert, Option.not_isSome_iff_eq_none.mp h2]

theorem pyDictOf_aux {α : Type} [Nonempty α] (l acc : List (Str × α))
    (h : ((acc ++ l).map (fun p => p.1)).Nodup) :
    l.foldl (fun d p => pyDictInsert d p.1 p.2) acc = acc ++ l := by
  induction l generalizing acc with
  | nil => simp
  | cons p rest ih =>
    have hmem : p.1 ∉ acc.map (fun q => q.1) := by
      intro hc
      have h3 := h
      rw [List.map_append] at h3
      rcases List.nodup_append.mp h3 with ⟨_, _, hdisj⟩
      exact hdisj hc (by simp)
    rw [List.foldl_cons, pyDictInsert_notMem acc p.1 p.2 hmem]
    have hre : (acc ++ [(p.1, p.2)]) ++ rest = acc ++ p :: rest := by simp
    have h4 := ih (acc ++ [(p.1, p.2)]) (by rw [hre]; exact h)
    rw [hre] at h4
    simpa using h4

theorem pyDictOf_nodup {α : Type} [Nonempty α] (l : List (Str × α))
    (h : (l.map (fun p => p.1)).Nodup) : pyDictOf l = l := by
  simpa using pyDictOf_aux l [] (by simpa using h)

theorem omapM_map_some {α β γ : Type} (l : List α) (f : α → β) (g : β → Option γ)
    (h : α → γ) (H : ∀ x ∈ l, g (f x) = some (h x)) :
    omapM g (l.map f) = some (l.map h) := by
  induction l with
  | nil => rfl
  | cons a rest ih =>
    have h1 : g (f a) = some (h a) := H a (by simp)
    have h2 : omapM g (rest.map f) = some (rest.map h) :=
      ih (fun x hx => H x (List.mem_cons_of_mem a hx))
    simp [omapM, h1, h2]

theorem omapM_isSome_length {α β : Type} (l : List α) (f : α → Option β)
    (H : ∀ x ∈ l, (f x).isSome) :
    ∃ ys, omapM f l = some ys ∧ ys.length = l.length := by
  induction l with
  | nil => exact ⟨[], rfl, rfl⟩
  | cons a rest ih =>
    obtain ⟨b, hb⟩ := Option.isSome_iff_exists.mp (H a (by simp))
    obtain ⟨ys, hys, hlen⟩ := ih (fun x hx => H x (List.mem_cons_of_mem a hx))
    exact ⟨b :: ys, by simp [omapM, hb, hys], by simp [hlen]⟩

theorem pySplit_ne_nil (p : Char → Bool) (s : Str) : pySplit p s ≠ [] := by
  induction s with
  | nil => simp [pySplit]
  | cons c rest ih =>
    by_cases h : p c
    · simp [pySplit, h]
    · simp only [pySplit, if_neg h]
      rcases hr : pySplit p rest with _ | ⟨hd, tl⟩
      · exact absurd hr ih
      · simp

theorem pySplit_all_false (p : Char → Bool) (s : Str)
    (h : ∀ c ∈ s, p c = false) : pySplit p s = [s] := by
  induction s with
  | nil => rfl
  | cons c rest ih =>
    have hc : p c = false := h c (by simp)
    have h2 := ih (fun x hx => h x (List.mem_cons_of_mem c hx))
    simp [pySplit, hc, h2]

theorem pySplit_append (p : Char → Bool) (a b : Str) (c : Char)
    (ha : ∀ x ∈ a, p x = false) (hc : p c = true) :
    pySplit p (a ++ c :: b) = a :: pySplit p b := by
  induction a with
  | nil => simp [pySplit, hc]
  | cons x a2 ih =>
    have hx : p x = false := ha x (by simp)
    have h2 := ih (fun y hy => ha y (List.mem_cons_of_mem x hy))
    simp [pySplit, hx, h2]

theorem pySplit_length_cons (p : Char → Bool) (c : Char) (rest : Str) :
    (pySplit p (c :: rest)).length =
      if p c then (pySplit p rest).length + 1 else (pySplit p rest).length := by
  by_cases h : p c
  · simp [pySplit, h]
  · simp only [pySplit, if_neg h]
    rcases hr : pySplit p rest with _ | ⟨hd, tl⟩
    · exact absurd hr (pySplit_ne_nil p rest)
    · simp [h, hr]

theorem pySplit_length_ge_two (p : Char → Bool) (s : Str) (c : Char)
    (hc : c ∈ s) (hp : p c = true) : 2 ≤ (pySplit p s).length := by
  induction s with
  | nil => cases hc
  | cons x rest ih =>
    rw [pySplit_length_cons]
    by_cases hx : p x
    · rw [if_pos hx]
      have h1 : 1 ≤ (pySplit p rest).length :=
        List.length_pos.mpr (pySplit_ne_nil p rest)
      omega
    · rw [if_neg hx]
      rcases List.mem_cons.mp hc with h | h
      · exact absurd (h ▸ hp) (by simpa using hx)
      · exact ih h

theorem attributes_nodup : Attributes.Nodup := by decide

theorem attributes_clean :
    ∀ a ∈ Attributes, a ≠ [] ∧ ('=' ∉ a) ∧ ∀ c ∈ a, isPyWs c = false := by decide

theorem pySplitOn_pair (a v : Str) (sep : Char) (ha : sep ∉ a) (hv : sep ∉ v) :
    pySplitOn sep (a ++ sep :: v) = [a, v] := by
  unfold pySplitOn
  rw [pySplit_append _ a v sep
      (fun x hx => decide_eq_false (fun he : x = sep => ha (he ▸ hx))) (by simp)]
  rw [pySplit_all_false _ v
      (fun x hx => decide_eq_false (fun he : x = sep => hv (he ▸ hx)))]

theorem pySplitWs_joinSep (chunks : List Str)
    (h : ∀ ch ∈ chunks, ch ≠ [] ∧ ∀ c ∈ ch, isPyWs c = false) :
    pySplitWs (joinSep [ ' ' ] chunks) = chunks := by
  induction chunks with
  | nil => rfl
  | cons s rest ih =>
    rcases rest with _ | ⟨s2, rest'⟩
    · obtain ⟨hne, hns⟩ := h s (by simp)
      simp [joinSep, pySplitWs, pySplit_all_false isPyWs s hns, List.filter_cons, hne]
    · obtain ⟨hne, hns⟩ := h s (by simp)
      have hjoin : joinSep [ ' ' ] (s :: s2 :: rest') =
          s ++ ' ' :: joinSep [ ' ' ] (s2 :: rest') := by
        simp [joinSep]
      have hws : isPyWs ' ' = true := by decide
      have hrest := ih (fun ch hch => h ch (List.mem_cons_of_mem s hch))
      rw [hjoin]
      unfold pySplitWs
      rw [pySplit_append isPyWs s (joinSep [ ' ' ] (s2 :: rest')) ' ' hns hws]
      rw [List.filter_cons]
      simp only [hne, decide_not]
      unfold pySplitWs at hrest
      simp only [ne_eq, decide_not] at hrest ⊢
      simp [hrest, hne]

theorem attrVals_name (t : Task) (h : ∀ a ∈ Attributes, cleanVal (t.StrVal a)) :
    attrVals (Task.name t) = some (Attributes.map (fun a => (a, t.StrVal a))) := by
  unfold attrVals Task.name
  have hchunks : ∀ ch ∈ Attributes.map (fun a => a ++ '=' :: t.StrVal a),
      ch ≠ [] ∧ ∀ c ∈ ch, isPyWs c = false := by
    intro ch hch
    obtain ⟨a, ha, rfl⟩ := List.mem_map.mp hch
    obtain ⟨hane, _, haws⟩ := attributes_clean a ha
    obtain ⟨_, hvws⟩ := h a ha
    refine ⟨by simp [hane], ?_⟩
    intro c hc
    rcases List.mem_append.mp hc with h1 | h1
    · exact haws c h1
    · rcases List.mem_cons.mp h1 with h2 | h2
      · subst h2; decide
      · exact hvws c h2
  rw [pySplitWs_joinSep _ hchunks]
  have hparse : ∀ a ∈ Attributes,
      (match pySplitOn '=' (a ++ '=' :: t.StrVal a) with
        | [x, v] => some (x, v)
        | _ => none) = some (a, t.StrVal a) := by
    intro a ha
    obtain ⟨_, hane, _⟩ := attributes_clean a ha
    obtain ⟨hvne, _⟩ := h a ha
    rw [pySplitOn_pair a (t.StrVal a) '=' hane hvne]
  rw [omapM_map_some Attributes _ _ (fun a => (a, t.StrVal a)) hparse]
  have hkeys : ((Attributes.map (fun a => (a, t.StrVal a))).map (fun p => p.1)).Nodup := by
    rw [List.map_map]
    exact attributes_nodup
  rw [Option.map_some']
  rw [pyDictOf_nodup _ hkeys]

theorem attrValLookup_name (t : Task) (h : ∀ a ∈ Attributes, cleanVal (t.StrVal a)) :
    ∀ a ∈ Attributes, attrValLookup (Task.name t) a = some (t.StrVal a) := by
  intro a ha
  unfold attrValLookup
  rw [attrVals_name t h]
  rw [Option.some_bind]
  exact alookup_map_pair Attributes (fun x => t.StrVal x) a ha

/-- C9: for a successfully constructed Task whose attribute string
values contain no `=` and no whitespace characters, the canonical name
parses back: `TaskResults(t, res).attr_vals[a] = t.StrVal(a)` for every
canonical attribute. (Amended from the original claim, which assumed
only the absence of `=`: a value containing other whitespace, which
`StrVal` does not strip, breaks the whitespace split of the name.) -/
theorem claim_C9 (m : MetaData) (t0 t : Task) (corr_ranks : List (Str × ℚ × ℚ))
    (matrix : List (List ℚ)) (hpost : Task.postInit m t0 = some t)
    (h : ∀ a ∈ Attributes, cleanVal (t.StrVal a)) :
    ∀ a ∈ Attributes,
      attrValLookup ((TaskResults.fromTask t corr_ranks matrix).name) a =
        some (t.StrVal a) := by
  have hname : (TaskResults.fromTask t corr_ranks matrix).name = Task.name t := rfl
  rw [hname]
  exact attrValLookup_name t h

theorem claim_C9_witness :
    Task.postInit cMeta defaultTask = some cT0 ∧
    (∀ a ∈ Attributes, cleanVal (cT0.StrVal a)) ∧
    ∀ a ∈ Attributes,
      attrValLookup ((TaskResults.fromTask cT0 [] []).name) a = some (cT0.StrVal a) :=
  ⟨by decide, by decide,
   claim_C9 cMeta defaultTask cT0 [] [] (by decide) (by decide)⟩

theorem claim_C9_counterexample :
    Task.postInit cMeta cT9bad = some cT9 ∧
    ('=' ∉ cT9.StrVal (("avg_by").data)) ∧
    attrValLookup ((TaskResults.fromTask cT9 [] []).name) (("avg_by").data) = none := by
  refine ⟨by decide, by decide, by decide⟩

/-- C2: accuracy-mode construction raises synchronously whenever the
granularity level is not `sys`. (Amended: the original claim also said
construction fails when the language field names exactly one language
pair, but the source has no such check — see the counterexample, where a
single-language accuracy task constructs successfully.) -/
theorem claim_C2 (m : MetaData) (t : Task) (hacc : t.corr_fcn = ("accuracy").data)
    (hlvl : t.level ≠ ("sys").data) : Task.postInit m t = none := by
  unfold Task.postInit
  by_cases h1 : (alookup m t.test_set).isNone
  · rw [if_pos h1]
  · rw [if_neg h1]
    by_cases h2 : t.corr_fcn ∉ corrNames
    · rw [if_pos h2]
    · rw [if_neg h2]
      have hfill : fillGRC m t = none := by
        unfold fillGRC
        rw [if_pos hacc, if_pos hlvl]
      rw [hfill]

theorem claim_C2_witness :
    Task.postInit cMeta
      { defaultTask with corr_fcn := ("accuracy").data, level := ("seg").data } = none :=
  claim_C2 cMeta _ (by decide) (by decide)

theorem claim_C2_counterexample :
    (pySplitOn ',' defaultTask.lang).length = 1 ∧
    Task.postInit cMeta { defaultTask with corr_fcn := ("accuracy").data } = some cT2acc :=
  ⟨by decide, by decide⟩

/-- C7: standard-mode construction (any correlation function other than
`accuracy`) raises synchronously whenever the language field contains a
comma (a multi-language list). -/
theorem claim_C7 (m : MetaData) (t : Task) (hc : ',' ∈ t.lang)
    (hs : t.corr_fcn ≠ ("accuracy").data) : Task.postInit m t = none := by
  have hlen : 2 ≤ (pySplitOn ',' t.lang).length :=
    pySplit_length_ge_two _ t.lang ',' hc (by simp)
  unfold Task.postInit
  by_cases h1 : (alookup m t.test_set).isNone
  · rw [if_pos h1]
  · rw [if_neg h1]
    by_cases h2 : t.corr_fcn ∉ corrNames
    · rw [if_pos h2]
    · rw [if_neg h2]
      have hfill : fillGRC m t = none := by
        unfold fillGRC
        rw [if_neg hs]
        have hne : t.subLangs.length ≠ 1 := by
          unfold Task.subLangs
          omega
        rw [if_pos hne]
      rw [hfill]

theorem claim_C7_witness :
    Task.postInit cMeta { defaultTask with lang := ("en-de,de-en").data } = none :=
  claim_C7 cMeta _ (by decide) (by decide)

theorem sortArgs_perm (l : List (Str × Str)) : (sortArgs l).Perm l :=
  List.perm_insertionSort argLE l

theorem sortArgs_sorted (l : List (Str × Str)) : List.Sorted argLE (sortArgs l) :=
  List.sorted_insertionSort argLE l

theorem sorted_argLT_of_nodup (l : List (Str × Str)) (hs : List.Sorted argLE l)
    (hnd : (l.map (fun p => p.1)).Nodup) : List.Sorted argLT l := by
  have hne : List.Pairwise (fun p q : Str × Str => p.1 ≠ q.1) l :=
    List.pairwise_map.mp hnd
  exact (List.Pairwise.and hs hne).imp (fun h => lt_of_le_of_ne h.1 h.2)

theorem sortArgs_eq_of_perm (l1 l2 : List (Str × Str)) (hperm : l1.Perm l2)
    (hnd : (l1.map (fun p => p.1)).Nodup) : sortArgs l1 = sortArgs l2 := by
  have hnd2 : (l2.map (fun p => p.1)).Nodup := ((hperm.map _).nodup_iff).mp hnd
  have hs1 : ((sortArgs l1).map (fun p => p.1)).Nodup :=
    (((sortArgs_perm l1).map _).nodup_iff).mpr hnd
  have hs2 : ((sortArgs l2).map (fun p => p.1)).Nodup :=
    (((sortArgs_perm l2).map _).nodup_iff).mpr hnd2
  exact List.eq_of_perm_of_sorted
    ((sortArgs_perm l1).trans (hperm.trans (sortArgs_perm l2).symm))
    (sorted_argLT_of_nodup _ (sortArgs_sorted l1) hs1)
    (sorted_argLT_of_nodup _ (sortArgs_sorted l2) hs2)

theorem postInit_elim (m : MetaData) (t u : Task) (h : Task.postInit m t = some u) :
    ∃ g r c, fillGRC m t = some (g, r, c) ∧
      u = { t with gold := g, refs := r, close_refs := c,
                   corr_fcn_args := some (sortArgs (t.corr_fcn_args.getD [])) } := by
  unfold Task.postInit at h
  by_cases h1 : (alookup m t.test_set).isNone
  · rw [if_pos h1] at h; cases h
  · rw [if_neg h1] at h
    by_cases h2 : t.corr_fcn ∉ corrNames
    · rw [if_pos h2] at h; cases h
    · rw [if_neg h2] at h
      rcases hf : fillGRC m t with _ | grc
      · rw [hf] at h; cases h
      · obtain ⟨g, r, c⟩ := grc
        rw [hf] at h
        injection h with h3
        exact ⟨g, r, c, rfl, h3.symm⟩

/-- C1: two Tasks whose fields other than the correlation-function
arguments coincide, and whose argument maps hold the same key/value
pairs in a possibly different insertion order, construct to identical
canonical names; and the name is the `attribute=value` join, in
canonical attribute order, of the space-stripped value strings. -/
theorem claim_C1 (m : MetaData) (t1 t2 u1 u2 : Task)
    (hf : { t1 with corr_fcn_args := none } = { t2 with corr_fcn_args := none })
    (hperm : (t1.corr_fcn_args.getD []).Perm (t2.corr_fcn_args.getD []))
    (hnd : ((t1.corr_fcn_args.getD []).map (fun p => p.1)).Nodup)
    (h1 : Task.postInit m t1 = some u1) (h2 : Task.postInit m t2 = some u2) :
    Task.name u1 = Task.name u2 ∧
    Task.name u1 = joinSep [ ' ' ] (Attributes.map (fun a => a ++ '=' :: u1.StrVal a)) := by
  obtain ⟨g1, r1, c1, hfill1, hu1⟩ := postInit_elim m t1 u1 h1
  obtain ⟨g2, r2, c2, hfill2, hu2⟩ := postInit_elim m t2 u2 h2
  have hfg : fillGRC m t1 = fillGRC m t2 := by
    have e1 : fillGRC m t1 = fillGRC m { t1 with corr_fcn_args := none } := rfl
    have e2 : fillGRC m t2 = fillGRC m { t2 with corr_fcn_args := none } := rfl
    rw [e1, e2, hf]
  have hgrc : (g1, r1, c1) = ((g2, r2, c2) : GoldVal × RefsVal × RefsVal) := by
    have h3 := hfill1.symm.trans (hfg.trans hfill2)
    injection h3
  have hg : g1 = g2 := congrArg Prod.fst hgrc
  have hr : r1 = r2 := congrArg (fun p => p.2.1) hgrc
  have hc : c1 = c2 := congrArg (fun p => p.2.2) hgrc
  have hsort : sortArgs (t1.corr_fcn_args.getD []) = sortArgs (t2.corr_fcn_args.getD []) :=
    sortArgs_eq_of_perm _ _ hperm hnd
  have hueq : u1 = u2 := by
    rw [hu1, hu2]
    have eb1 : ({ t1 with
        gold := g1, refs := r1, close_refs := c1,
        corr_fcn_args := some (sortArgs (t1.corr_fcn_args.getD [])) } : Task) =
        { ({ t1 with corr_fcn_args := none } : Task) with
            gold := g1, refs := r1, close_refs := c1,
            corr_fcn_args := some (sortArgs (t1.corr_fcn_args.getD [])) } := rfl
    have eb2 : ({ t2 with
        gold := g2, refs := r2, close_refs := c2,
        corr_fcn_args := some (sortArgs (t2.corr_fcn_args.getD [])) } : Task) =
        { ({ t2 with corr_fcn_args := none } : Task) with
            gold := g2, refs := r2, close_refs := c2,
            corr_fcn_args := some (sortArgs (t2.corr_fcn_args.getD [])) } := rfl
    rw [eb1, eb2, hf, hsort, hg, hr, hc]
  exact ⟨by rw [hueq], rfl⟩

theorem claim_C1_witness :
    Task.postInit cMeta cT1a = some cT1r ∧ Task.postInit cMeta cT1b = some cT1r ∧
    Task.name cT1r = Task.name cT1r :=
  ⟨by decide, by decide,
   (claim_C1 cMeta cT1a cT1b cT1r cT1r (by decide) (by decide) (by decide)
     (by decide) (by decide)).1⟩

/-- C4: writing a `TaskResults` and reading it back yields a value that
is structurally equal in the sense of `TaskResults.__eq__`: identical
name, threshold, rank mapping, and a numerically identical matrix. -/
theorem claim_C4 (r : TaskResults) :
    ∃ r2, TaskResults.Read (TaskResults.Write r) = some r2 ∧ TaskResults.eqv r r2 := by
  refine ⟨r, ?_, rfl, rfl, rfl, rfl⟩
  have h1 : omapM (fun p =>
      match p.2 with
      | Json.arr [Json.num c, Json.num k] => some (p.1, (c, k))
      | _ => none)
      (r.corr_ranks.map (fun p => (p.1, Json.arr [Json.num p.2.1, Json.num p.2.2]))) =
      some r.corr_ranks := by
    have := omapM_map_some r.corr_ranks
      (fun p => (p.1, Json.arr [Json.num p.2.1, Json.num p.2.2]))
      (fun p =>
        match p.2 with
        | Json.arr [Json.num c, Json.num k] => some (p.1, (c, k))
        | _ => none)
      (fun p => p) (fun p _ => rfl)
    simpa using this
  have h2 : omapM (fun row =>
      match row with
      | Json.arr es => omapM (fun e =>
          match e with
          | Json.num q => some q
          | _ => none) es
      | _ => none)
      (r.matrix.map (fun row => Json.arr (row.map Json.num))) = some r.matrix := by
    have := omapM_map_some r.matrix (fun row => Json.arr (row.map Json.num))
      (fun row =>
        match row with
        | Json.arr es => omapM (fun e =>
            match e with
            | Json.num q => some q
            | _ => none) es
        | _ => none)
      (fun row => row) ?_
    · simpa using this
    · intro row _
      have := omapM_map_some row Json.num
        (fun e =>
          match e with
          | Json.num q => some q
          | _ => none)
        (fun q => q) (fun q _ => rfl)
      simpa using this
  simp only [TaskResults.Write, TaskResults.Read, h1, h2, Option.some_bind]
  rfl

theorem cartProd_length (ls : List (List AttrVal)) :
    (cartProd ls).length = (ls.map List.length).prod := by
  induction ls with
  | nil => rfl
  | cons l ls ih =>
    rw [cartProd, List.length_flatMap]
    have hmap : l.map (List.length ∘ fun v => (cartProd ls).map (fun c => v :: c)) =
        l.map (fun _ => (cartProd ls).length) := by
      apply List.map_congr_left
      intro v _
      simp
    rw [hmap, List.map_const', List.sum_replicate, smul_eq_mul, ih]
    simp [Nat.mul_comm]

theorem cartProd_nodup (ls : List (List AttrVal)) (h : ∀ l ∈ ls, l.Nodup) :
    (cartProd ls).Nodup := by
  induction ls with
  | nil => exact List.nodup_singleton []
  | cons l ls ih =>
    rw [cartProd]
    rw [List.nodup_flatMap]
    refine ⟨?_, ?_⟩
    · intro v _
      exact (ih (fun x hx => h x (List.mem_cons_of_mem l hx))).map
        (fun c1 c2 he => List.tail_eq_of_cons_eq he)
    · have hl : l.Nodup := h l (by simp)
      refine hl.imp ?_
      intro v w hvw
      intro zs hz1 hz2
      obtain ⟨c1, _, hc1⟩ := List.mem_map.mp hz1
      obtain ⟨c2, _, hc2⟩ := List.mem_map.mp hz2
      exact hvw (by rw [← hc1] at hc2; exact List.head_eq_of_cons_eq hc2.symm)

/-- C5: a non-empty attribute-combination mapping whose combinations all
pass validation yields exactly the product of the list lengths many
tasks, one per cartesian-product element with the fixed extras merged
in; the combinations are pairwise distinct provided each value list has
no duplicates; an empty mapping yields zero tasks. (Amended: with a
duplicated value inside a value list the produced combinations — and
tasks — repeat, so distinctness needs the no-duplicate proviso.) -/
theorem claim_C5 (m : MetaData) (attr_combs : List (Str × List AttrVal))
    (extra : List (Str × AttrVal)) :
    (TaskSet.init m [] extra = some []) ∧
    (attr_combs ≠ [] →
      (∀ vals ∈ cartProd (attr_combs.map (fun p => p.2)),
        (Task.postInit m
          (applyPairs defaultTask
            (((attr_combs.map (fun p => p.1)).zip vals) ++ extra))).isSome) →
      ∃ ts, TaskSet.init m attr_combs extra = some ts ∧
        ts.length = (attr_combs.map (fun p => p.2.length)).prod ∧
        ((∀ l ∈ attr_combs.map (fun p => p.2), l.Nodup) →
          (cartProd (attr_combs.map (fun p => p.2))).Nodup)) := by
  constructor
  · rfl
  · intro hne hok
    obtain ⟨ts, hts, hlen⟩ := omapM_isSome_length _ _ hok
    refine ⟨ts, ?_, ?_, ?_⟩
    · unfold TaskSet.init
      rw [if_neg (by simpa using hne)]
      exact hts
    · rw [hlen, cartProd_length]
      rw [List.map_map]
      rfl
    · intro hnd
      exact cartProd_nodup _ hnd

theorem claim_C5_witness :
    (cCombs ≠ []) ∧
    ∃ ts, TaskSet.init cMeta cCombs [] = some ts ∧
      ts.length = (cCombs.map (fun p => p.2.length)).prod ∧
      ((∀ l ∈ cCombs.map (fun p => p.2), l.Nodup) →
        (cartProd (cCombs.map (fun p => p.2))).Nodup) :=
  ⟨by decide, (claim_C5 cMeta cCombs []).2 (by decide) (by decide)⟩

theorem claim_C5_counterexample :
    TaskSet.init cMeta cDup [] = some [cT0, cT0] ∧
    ¬ (cartProd (cDup.map (fun p => p.2))).Nodup :=
  ⟨by decide, by decide⟩

theorem map_update_notMem {α : Type} [Nonempty α] (gs : List (Str × α)) (v : Str)
    (upd : Str × α → Str × α) (hv : v ∉ gs.map (fun p => p.1)) :
    gs.map (fun p => if p.1 = v then upd p else p) = gs := by
  induction gs with
  | nil => rfl
  | cons p rest ih =>
    have hp : p.1 ≠ v := by
      intro he
      exact hv (by rw [List.map_cons, he]; exact List.mem_cons_self v _)
    have hrest : v ∉ rest.map (fun q => q.1) := by
      intro hm
      exact hv (by rw [List.map_cons]; exact List.mem_cons_of_mem _ hm)
    rw [List.map_cons, if_neg hp, ih hrest]

theorem alookup_append {α : Type} (l1 l2 : List (Str × α)) (k : Str) :
    alookup (l1 ++ l2) k =
      match alookup l1 k with
      | some v => some v
      | none => alookup l2 k := by
  induction l1 with
  | nil => simp [alookup]
  | cons p rest ih =>
    by_cases h : p.1 = k
    · simp [alookup, h]
    · simp [alookup, h, ih]

theorem flatMap_update_perm {β : Type} (gs : List (Str × List β)) (v : Str) (x : β)
    (hnd : (gs.map (fun p => p.1)).Nodup) (hv : v ∈ gs.map (fun p => p.1)) :
    ((gs.map (fun p => if p.1 = v then (p.1, p.2 ++ [x]) else p)).flatMap
        (fun p => p.2)).Perm
      (gs.flatMap (fun p => p.2) ++ [x]) := by
  induction gs with
  | nil => cases hv
  | cons p rest ih =>
    have hnd2 : (rest.map (fun q => q.1)).Nodup := (List.nodup_cons.mp hnd).2
    by_cases hp : p.1 = v
    · have hnv : v ∉ rest.map (fun q => q.1) := hp ▸ (List.nodup_cons.mp hnd).1
      rw [List.map_cons, if_pos hp, map_update_notMem rest v _ hnv]
      rw [List.flatMap_cons, List.flatMap_cons]
      have e1 : (p.2 ++ [x]) ++ rest.flatMap (fun q => q.2) =
          p.2 ++ ([x] ++ rest.flatMap (fun q => q.2)) := by
        rw [List.append_assoc]
      have e2 : (p.2 ++ rest.flatMap (fun q => q.2)) ++ [x] =
          p.2 ++ (rest.flatMap (fun q => q.2) ++ [x]) := by
        rw [List.append_assoc]
      rw [e1, e2]
      exact List.Perm.append_left p.2 List.perm_append_comm
    · have hv2 : v ∈ rest.map (fun q => q.1) := by
        rw [List.map_cons] at hv
        rcases List.mem_cons.mp hv with h | h
        · exact absurd h.symm hp
        · exact h
      rw [List.map_cons, if_neg hp, List.flatMap_cons, List.flatMap_cons,
        List.append_assoc]
      exact List.Perm.append_left p.2 (ih hnd2 hv2)

theorem filter_nil_of_value {attr : Str} (pre : List TaskResults) (w : Str)
    (h : ∀ r ∈ pre, ¬ attrValLookup r.name attr = some w) :
    pre.filter (fun r => attrValLookup r.name attr = some w) = [] := by
  rw [List.filter_eq_nil_iff]
  intro r hr
  simpa using h r hr

theorem groupsInv_step (attr : Str) (pre : List TaskResults)
    (gs : List (Str × List TaskResults)) (r : TaskResults) (v : Str)
    (hv : attrValLookup r.name attr = some v) (hinv : GroupsInv attr pre gs) :
    GroupsInv attr (pre ++ [r]) (addToGroup gs v r) := by
  obtain ⟨hnd, hfilt, hkeys, hperm⟩ := hinv
  unfold addToGroup
  by_cases hmem : (alookup gs v).isSome
  · rw [if_pos hmem]
    have hvk : v ∈ gs.map (fun p => p.1) := (alookup_isSome_iff gs v).mp hmem
    have hkeep : (gs.map (fun p => if p.1 = v then (p.1, p.2 ++ [r]) else p)).map
        (fun p => p.1) = gs.map (fun p => p.1) := by
      rw [List.map_map]
      apply List.map_congr_left
      intro p _
      by_cases h : p.1 = v <;> simp [h]
    refine ⟨by ( rw [hkeep]; exact hnd), ?_, ?_, ?_⟩
    · intro p hp
      obtain ⟨q, hq, hqe⟩ := List.mem_map.mp hp
      rw [List.filter_append]
      by_cases h : q.1 = v
      · rw [if_pos h] at hqe
        subst hqe
        have h1 : q.2 = pre.filter (fun s => attrValLookup s.name attr = some q.1) :=
          hfilt q hq
        have h2 : [r].filter (fun s => attrValLookup s.name attr = some q.1) = [r] := by
          simp [List.filter_cons, hv, h]
        rw [h2, ← h1]
      · rw [if_neg h] at hqe
        subst hqe
        have h2 : [r].filter (fun s => attrValLookup s.name attr = some q.1) = [] := by
          have hne : ¬ attrValLookup r.name attr = some q.1 := by
            rw [hv]
            intro hc
            exact h (Option.some_injective _ hc).symm
          simp [List.filter_cons, hne]
        rw [h2, List.append_nil]
        exact hfilt q hq
    · intro w
      have hiff : (alookup (gs.map (fun p => if p.1 = v then (p.1, p.2 ++ [r]) else p))
          w).isSome ↔ (alookup gs w).isSome := by
        rw [alookup_isSome_iff, alookup_isSome_iff, hkeep]
      rw [hiff, hkeys w]
      constructor
      · rintro ⟨s, hs, hsv⟩
        exact ⟨s, List.mem_append_left _ hs, hsv⟩
      · rintro ⟨s, hs, hsv⟩
        rcases List.mem_append.mp hs with h | h
        · exact ⟨s, h, hsv⟩
        · have hsr : s = r := by simpa using h
          subst hsr
          have hw : w = v := Option.some_injective _ (hv ▸ hsv.symm)
          subst hw
          exact (hkeys w).mp hmem
    · exact (flatMap_update_perm gs v r hnd hvk).trans (hperm.append_right [r])
  · rw [if_neg hmem]
    have hvk : v ∉ gs.map (fun p => p.1) :=
      fun hm => hmem ((alookup_isSome_iff gs v).mpr hm)
    have hnone : ∀ s ∈ pre, ¬ attrValLookup s.name attr = some v := by
      intro s hs hc
      exact hmem ((hkeys v).mpr ⟨s, hs, hc⟩)
    refine ⟨?_, ?_, ?_, ?_⟩
    · rw [List.map_append, List.nodup_append]
      refine ⟨hnd, List.nodup_singleton v, ?_⟩
      intro a ha hb
      have hab : a = v := by simpa using hb
      exact hvk (hab ▸ ha)
    · intro p hp
      rcases List.mem_append.mp hp with h | h
      · rw [List.filter_append]
        have h2 : [r].filter (fun s => attrValLookup s.name attr = some p.1) = [] := by
          have hne : ¬ attrValLookup r.name attr = some p.1 := by
            rw [hv]
            intro hc
            have hvp : v = p.1 := Option.some_injective _ hc
            exact hvk (hvp ▸ List.mem_map_of_mem (fun q => q.1) h)
          simp [List.filter_cons, hne]
        rw [h2, List.append_nil]
        exact hfilt p h
      · have hpv : p = (v, [r]) := by simpa using h
        subst hpv
        rw [List.filter_append, filter_nil_of_value pre v hnone]
        simp [List.filter_cons, hv]
    · intro w
      rw [alookup_append]
      rcases hlk : alookup gs w with _ | val
      · constructor
        · intro hsome
          by_cases he : v = w
          · subst he
            exact ⟨r, List.mem_append_right _ (by simp), hv⟩
          · exfalso
            simp [alookup, he] at hsome
        · rintro ⟨s, hs, hsv⟩
          rcases List.mem_append.mp hs with h | h
          · exfalso
            have h2 := (hkeys w).mpr ⟨s, h, hsv⟩
            rw [hlk] at h2
            simp at h2
          · have hsr : s = r := by simpa using h
            subst hsr
            have hw : w = v := Option.some_injective _ (hv ▸ hsv.symm)
            subst hw
            simp [alookup]
      · constructor
        · intro _
          obtain ⟨s, hs, hsv⟩ := (hkeys w).mp (by rw [hlk]; rfl)
          exact ⟨s, List.mem_append_left _ hs, hsv⟩
        · intro _
          rfl
    · rw [List.flatMap_append]
      simp only [List.flatMap_cons, List.flatMap_nil, List.append_nil]
      exact hperm.append_right [r]

theorem groupsInv_nil (attr : Str) : GroupsInv attr [] [] := by
  refine ⟨List.nodup_nil, by simp, ?_, by simp⟩
  intro v
  simp [alookup]

theorem split_aux (attr : Str) (rest : List TaskResults) :
    ∀ (pre : List TaskResults) (gs : List (Str × List TaskResults)),
    (∀ r ∈ rest, (attrValLookup r.name attr).isSome) →
    GroupsInv attr pre gs →
    ∃ gs2, ofoldlM (fun gs r =>
        (attrValLookup r.name attr).map (fun v => addToGroup gs v r)) gs rest =
      some gs2 ∧ GroupsInv attr (pre ++ rest) gs2 := by
  induction rest with
  | nil =>
    intro pre gs _ hinv
    exact ⟨gs, rfl, by simpa using hinv⟩
  | cons r rest' ih =>
    intro pre gs hrest hinv
    obtain ⟨v, hv⟩ := Option.isSome_iff_exists.mp (hrest r (by simp))
    have hinv2 := groupsInv_step attr pre gs r v hv hinv
    obtain ⟨gs2, hfold, hinv3⟩ := ih (pre ++ [r]) (addToGroup gs v r)
      (fun s hs => hrest s (List.mem_cons_of_mem r hs)) hinv2
    refine ⟨gs2, ?_, by simpa using hinv3⟩
    rw [ofoldlM, hv]
    simpa using hfold

theorem splitByAttr_spec (rs : List TaskResults) (attr : Str)
    (h : ∀ r ∈ rs, (attrValLookup r.name attr).isSome) :
    ∃ gs, SplitByAttr rs attr = some gs ∧ GroupsInv attr rs gs := by
  obtain ⟨gs, hfold, hinv⟩ := split_aux attr rs [] [] h (groupsInv_nil attr)
  exact ⟨gs, hfold, by simpa using hinv⟩

/-- C8: `SplitByAttr` partitions the results by the textual value of the
attribute recovered from each result's name: keys are exactly the values
occurring in the results, each group is the subsequence of the original
list carrying that value (every result preserved, insertion order
preserved), and the groups jointly carry a permutation of the input. -/
theorem claim_C8 (rs : List TaskResults) (attr : Str)
    (h : ∀ r ∈ rs, (attrValLookup r.name attr).isSome) :
    ∃ gs, SplitByAttr rs attr = some gs ∧ GroupsInv attr rs gs :=
  splitByAttr_spec rs attr h

theorem claim_C8_witness :
    (∀ r ∈ [cR1, cR2], (attrValLookup r.name (("lang").data)).isSome) ∧
    (∃ gs, SplitByAttr [cR1, cR2] (("lang").data) = some gs ∧
      GroupsInv (("lang").data) [cR1, cR2] gs) ∧
    SplitByAttr [cR1, cR2] (("lang").data) =
      some [(("en-de").data, [cR1]), (("de-en").data, [cR2])] :=
  ⟨by decide, claim_C8 [cR1, cR2] (("lang").data) (by decide), by decide⟩

theorem ofoldlM_congr_foldl {α β : Type} (f : β → α → Option β) (g : β → α → β)
    (l : List α) (b : β) (H : ∀ a ∈ l, ∀ d, f d a = some (g d a)) :
    ofoldlM f b l = some (l.foldl g b) := by
  induction l generalizing b with
  | nil => rfl
  | cons a rest ih =>
    rw [ofoldlM, H a (by simp) b]
    simp only [Option.some_bind, List.foldl_cons]
    exact ih (g b a) (fun x hx d => H x (List.mem_cons_of_mem a hx) d)

theorem foldl_flatMap {α β γ : Type} (l : List α) (f : α → List β) (g : γ → β → γ)
    (b : γ) : (l.flatMap f).foldl g b = l.foldl (fun b2 a => (f a).foldl g b2) b := by
  induction l generalizing b with
  | nil => rfl
  | cons a rest ih =>
    rw [List.flatMap_cons, List.foldl_append, List.foldl_cons, ih]

theorem alookup_eq_none_of_notMem {α : Type} [Nonempty α] (l : List (Str × α)) (k : Str)
    (h : k ∉ l.map (fun p => p.1)) : alookup l k = none := by
  rcases hl : alookup l k with _ | v
  · rfl
  · exact absurd ((alookup_isSome_iff l k).mp (by rw [hl]; rfl)) h

theorem alookup_of_mem_nodup {α : Type} (l : List (Str × α)) (k : Str) (x : α)
    (hmem : (k, x) ∈ l) (hnd : (l.map (fun p => p.1)).Nodup) :
    alookup l k = some x := by
  induction l with
  | nil => cases hmem
  | cons p rest ih =>
    have hnd2 := hnd
    rw [List.map_cons] at hnd2
    obtain ⟨hnotin, hrest⟩ := List.nodup_cons.mp hnd2
    rcases List.mem_cons.mp hmem with h | h
    · rw [← h]
      simp [alookup]
    · have hk : k ∈ rest.map (fun q => q.1) :=
        List.mem_map_of_mem (fun q => q.1) h
      have hp : p.1 ≠ k := fun he => hnotin (he ▸ hk)
      rw [alookup, if_neg hp]
      exact ih h hrest

theorem foldl_insert_replace {α : Type} [Nonempty α] (U : List (Str × α)) :
    ∀ (d : List (Str × α)),
    (d.map (fun p => p.1)).Nodup → (U.map (fun p => p.1)).Nodup →
    (∀ ku ∈ U.map (fun p => p.1), ku ∈ d.map (fun p => p.1)) →
    U.foldl (fun d2 q => pyDictInsert d2 q.1 q.2) d =
      d.map (fun p => (p.1,
        match alookup U p.1 with
        | some w => w
        | none => p.2)) := by
  induction U with
  | nil =>
    intro d _ _ _
    rw [List.foldl_nil]
    have : d.map (fun p => ((p.1, p.2) : Str × α)) = d.map (fun p => p) := by
      apply List.map_congr_left
      intro p _
      rfl
    rw [show (fun p : Str × α => (p.1,
        match alookup ([] : List (Str × α)) p.1 with
        | some w => w
        | none => p.2)) = fun p => (p.1, p.2) from rfl]
    rw [this, List.map_id']
  | cons q U' ih =>
    intro d hd hU hsub
    have hkd : q.1 ∈ d.map (fun p => p.1) := hsub q.1 (by simp)
    have hins : pyDictInsert d q.1 q.2 =
        d.map (fun p => if p.1 = q.1 then (q.1, q.2) else p) := by
      rw [pyDictInsert, if_pos ((alookup_isSome_iff d q.1).mpr hkd)]
    have hkq : q.1 ∉ U'.map (fun p => p.1) := (List.nodup_cons.mp (by simpa using hU)).1
    have hU' : (U'.map (fun p => p.1)).Nodup := (List.nodup_cons.mp (by simpa using hU)).2
    have hkeep : (d.map (fun p => if p.1 = q.1 then (q.1, q.2) else p)).map
        (fun p => p.1) = d.map (fun p => p.1) := by
      rw [List.map_map]
      apply List.map_congr_left
      intro p _
      by_cases h : p.1 = q.1 <;> simp [h]
    rw [List.foldl_cons, hins]
    rw [ih _ (by rw [hkeep]; exact hd) hU'
      (fun ku hku => by rw [hkeep]; exact hsub ku (by simp [hku]))]
    rw [List.map_map]
    apply List.map_congr_left
    intro p _
    by_cases h : p.1 = q.1
    · have hnone : alookup U' q.1 = none := alookup_eq_none_of_notMem U' q.1 hkq
      simp only [Function.comp, h, if_pos rfl]
      rw [show alookup (q :: U') q.1 = some q.2 from by simp [alookup]]
      simp [hnone]
    · simp only [Function.comp, if_neg h]
      rw [show alookup (q :: U') p.1 = alookup U' p.1 from by
        rw [alookup, if_neg (fun he => h he.symm)]]

theorem zip_self_map {α β : Type} (l : List α) (g : α → β) :
    l.zip (l.map g) = l.map (fun a => (a, g a)) := by
  induction l with
  | nil => rfl
  | cons a rest ih => simp [List.zip_cons_cons, ih]

theorem flatMap_congr {α β : Type} (l : List α) (f g : α → List β)
    (h : ∀ a ∈ l, f a = g a) : l.flatMap f = l.flatMap g := by
  induction l with
  | nil => rfl
  | cons a rest ih =>
    rw [List.flatMap_cons, List.flatMap_cons, h a (by simp),
      ih (fun x hx => h x (List.mem_cons_of_mem a hx))]

theorem assignWeights_spec (attrs : List Str) :
    ∀ (rs : List TaskResults) (w : ℚ),
    rs ≠ [] → ((rs.map (fun r => r.name)).Nodup) →
    (∀ r ∈ rs, ∀ b ∈ attrs, (attrValLookup r.name b).isSome) →
    AssignWeights rs attrs w = some (rs.map (resultWeight rs attrs w)) ∧
    (rs.map (resultWeight rs attrs w)).sum = w := by
  induction attrs with
  | nil =>
    intro rs w hne hnames _
    have hn : rs.length ≠ 0 := fun h => hne (List.length_eq_zero.mp h)
    have hmapc : rs.map (resultWeight rs [] w) =
        List.replicate rs.length (w / rs.length) := by
      rw [show resultWeight rs [] w = fun _ => w / rs.length from rfl]
      exact List.map_const' rs (w / rs.length)
    constructor
    · rw [AssignWeights, if_neg hn, hmapc]
    · rw [hmapc, List.sum_replicate, nsmul_eq_mul]
      have hq : (rs.length : ℚ) ≠ 0 := Nat.cast_ne_zero.mpr hn
      field_simp
  | cons a rest ih =>
    intro rs w hne hnames hparse
    obtain ⟨gs, hsplit, hinv⟩ := splitByAttr_spec rs a
      (fun r hr => hparse r hr a (by simp))
    obtain ⟨hnd_gs, hfilt, hkeys, hperm⟩ := hinv
    have hlen_gs : gs ≠ [] := by
      intro h
      subst h
      exact hne (List.Perm.eq_nil hperm.symm)
    have hq_gs : (gs.length : ℚ) ≠ 0 :=
      Nat.cast_ne_zero.mpr (fun h => hlen_gs (List.length_eq_zero.mp h))
    have hflat_nodup : ((gs.flatMap (fun p => p.2)).map (fun r => r.name)).Nodup :=
      ((hperm.map (fun r => r.name)).nodup_iff).mpr hnames
    have hgroup : ∀ p ∈ gs, p.2 ≠ [] ∧ ((p.2.map (fun r => r.name)).Nodup) ∧
        (∀ s ∈ p.2, s ∈ rs) ∧ (∀ s ∈ p.2, attrValLookup s.name a = some p.1) := by
      intro p hp
      have hfe := hfilt p hp
      refine ⟨?_, ?_, ?_, ?_⟩
      · obtain ⟨s, hsrs, hsv⟩ := (hkeys p.1).mp
          ((alookup_isSome_iff gs p.1).mpr (List.mem_map_of_mem (fun q => q.1) hp))
        have hsp : s ∈ p.2 := by
          rw [hfe]
          exact List.mem_filter.mpr ⟨hsrs, by simp [hsv]⟩
        intro hnil
        rw [hnil] at hsp
        cases hsp
      · rw [hfe]
        exact ((List.filter_sublist rs).map (fun r => r.name)).nodup hnames
      · intro s hs
        rw [hfe] at hs
        exact (List.mem_filter.mp hs).1
      · intro s hs
        rw [hfe] at hs
        have := (List.mem_filter.mp hs).2
        simpa using this
    have hIH : ∀ p ∈ gs,
        AssignWeights p.2 rest (w / gs.length) =
          some (p.2.map (resultWeight p.2 rest (w / gs.length))) ∧
        (p.2.map (resultWeight p.2 rest (w / gs.length))).sum = w / gs.length := by
      intro p hp
      obtain ⟨hpne, hpnd, hpsub, _⟩ := hgroup p hp
      exact ih p.2 (w / gs.length) hpne hpnd
        (fun s hs b hb => hparse s (hpsub s hs) b (List.mem_cons_of_mem a hb))
    have hrwF : ∀ p ∈ gs, ∀ s ∈ p.2,
        resultWeight rs (a :: rest) w s = resultWeight p.2 rest (w / gs.length) s := by
      intro p hp s hs
      have hlook : attrValLookup s.name a = some p.1 := (hgroup p hp).2.2.2 s hs
      have hgrp : alookup gs p.1 = some p.2 :=
        alookup_of_mem_nodup gs p.1 p.2 hp hnd_gs
      simp only [resultWeight, hsplit, hlook, hgrp]
    have hinit : rs.foldl (fun d r => pyDictInsert d r.name (0 : ℚ)) [] =
        rs.map (fun r => (r.name, (0 : ℚ))) := by
      have h1 : (rs.map (fun r => (r.name, (0 : ℚ)))).foldl
          (fun d p => pyDictInsert d p.1 p.2) [] =
          rs.foldl (fun d r => pyDictInsert d r.name (0 : ℚ)) [] := by
        rw [List.foldl_map]
      rw [← h1]
      have h2 : ((rs.map (fun r => (r.name, (0 : ℚ)))).map (fun p => p.1)).Nodup := by
        rw [List.map_map]
        exact hnames
      exact pyDictOf_nodup _ h2
    have hUkeys : (gs.flatMap (fun p => p.2.map
        (fun s => (s.name, resultWeight p.2 rest (w / gs.length) s)))).map
          (fun q => q.1) =
        (gs.flatMap (fun p => p.2)).map (fun s => s.name) := by
      rw [List.map_flatMap, List.map_flatMap]
      apply flatMap_congr
      intro p _
      rw [List.map_map]
      rfl
    have hUnodup : ((gs.flatMap (fun p => p.2.map
        (fun s => (s.name, resultWeight p.2 rest (w / gs.length) s)))).map
          (fun q => q.1)).Nodup := by
      rw [hUkeys]
      exact hflat_nodup
    have hUlook : ∀ r ∈ rs,
        alookup (gs.flatMap (fun p => p.2.map
          (fun s => (s.name, resultWeight p.2 rest (w / gs.length) s)))) r.name =
        some (resultWeight rs (a :: rest) w r) := by
      intro r hr
      obtain ⟨p, hp, hrp⟩ := List.mem_flatMap.mp (hperm.mem_iff.mpr hr)
      have hmemU : (r.name, resultWeight p.2 rest (w / gs.length) r) ∈
          gs.flatMap (fun p => p.2.map
            (fun s => (s.name, resultWeight p.2 rest (w / gs.length) s))) :=
        List.mem_flatMap.mpr ⟨p, hp, List.mem_map_of_mem _ hrp⟩
      rw [alookup_of_mem_nodup _ r.name _ hmemU hUnodup, hrwF p hp r hrp]
    have hstep : ∀ p ∈ gs, ∀ d : List (Str × ℚ),
        (AssignWeights p.2 rest (w / gs.length)).bind
          (fun sw => some ((p.2.zip sw).foldl
            (fun d2 q => pyDictInsert d2 q.1.name q.2) d)) =
        some ((p.2.map (fun s => (s.name, resultWeight p.2 rest (w / gs.length) s))).foldl
          (fun d2 q => pyDictInsert d2 q.1 q.2) d) := by
      intro p hp d
      rw [(hIH p hp).1, Option.some_bind]
      congr 1
      rw [zip_self_map, List.foldl_map, List.foldl_map]
    have hfold := ofoldlM_congr_foldl
      (fun d p => (AssignWeights p.2 rest (w / gs.length)).bind
        (fun sw => some ((p.2.zip sw).foldl
          (fun d2 q => pyDictInsert d2 q.1.name q.2) d)))
      (fun d p => (p.2.map (fun s =>
          (s.name, resultWeight p.2 rest (w / gs.length) s))).foldl
        (fun d2 q => pyDictInsert d2 q.1 q.2) d)
      gs (rs.map (fun r => (r.name, (0 : ℚ)))) hstep
    have hUfold : gs.foldl (fun d p => (p.2.map (fun s =>
        (s.name, resultWeight p.2 rest (w / gs.length) s))).foldl
          (fun d2 q => pyDictInsert d2 q.1 q.2) d)
        (rs.map (fun r => (r.name, (0 : ℚ)))) =
        (gs.flatMap (fun p => p.2.map (fun s =>
          (s.name, resultWeight p.2 rest (w / gs.length) s)))).foldl
          (fun d2 q => pyDictInsert d2 q.1 q.2)
          (rs.map (fun r => (r.name, (0 : ℚ)))) :=
      (foldl_flatMap gs _ _ _).symm
    have hreplace := foldl_insert_replace
      (gs.flatMap (fun p => p.2.map (fun s =>
        (s.name, resultWeight p.2 rest (w / gs.length) s))))
      (rs.map (fun r => (r.name, (0 : ℚ))))
      (by rw [List.map_map]; exact hnames)
      hUnodup
      (by
        intro ku hku
        rw [hUkeys] at hku
        rw [List.map_map]
        have := (hperm.map (fun s => s.name)).mem_iff.mp hku
        simpa using this)
    constructor
    · show AssignWeights rs (a :: rest) w = _
      rw [AssignWeights]
      rw [hinit, hsplit]
      simp only [Option.bind_eq_bind, Option.some_bind, Option.pure_def, hfold]
      rw [hUfold, hreplace]
      refine congrArg some ?_
      rw [List.map_map, List.map_map]
      apply List.map_congr_left
      intro r hr
      simp only [Function.comp]
      rw [hUlook r hr]
    · have hsum1 : (rs.map (resultWeight rs (a :: rest) w)).sum =
          ((gs.flatMap (fun p => p.2)).map (resultWeight rs (a :: rest) w)).sum :=
        ((hperm.map (resultWeight rs (a :: rest) w)).sum_eq).symm
      rw [hsum1, List.map_flatMap]
      rw [flatMap_congr gs _ (fun p => p.2.map
          (resultWeight p.2 rest (w / gs.length)))
        (fun p hp => List.map_congr_left (fun s hs => hrwF p hp s hs))]
      rw [List.flatMap_def, List.sum_flatten, List.map_map]
      have hconst : gs.map (List.sum ∘ fun p => p.2.map
          (resultWeight p.2 rest (w / gs.length))) =
          gs.map (fun _ => w / gs.length) := by
        apply List.map_congr_left
        intro p hp
        exact (hIH p hp).2
      rw [hconst, List.map_const', List.sum_replicate, nsmul_eq_mul]
      field_simp

/-- C3: for a non-empty `TaskSetResults` whose result names are pairwise
distinct, parseable, and carry every attribute being split on,
`AssignWeights(attrs, W)` returns one weight per result, ordered to
match the result sequence (the i-th weight is the hierarchical share of
the i-th result), summing exactly to `W`; with an empty attribute list
it is the uniform `W/n` weighting. (Amended: the original claim said
this held for every `TaskSetResults`; the `weights` dict is keyed by
result name, so duplicate names collapse entries and break both the
length and the sum — see the counterexample.) -/
theorem claim_C3 (rs : List TaskResults) (attrs : List Str) (w : ℚ)
    (hne : rs ≠ []) (hnames : (rs.map (fun r => r.name)).Nodup)
    (hparse : ∀ r ∈ rs, ∀ b ∈ attrs, (attrValLookup r.name b).isSome) :
    ∃ ws, AssignWeights rs attrs w = some ws ∧
      ws = rs.map (resultWeight rs attrs w) ∧
      ws.length = rs.length ∧ ws.sum = w ∧
      (attrs = [] → ws = List.replicate rs.length (w / rs.length)) := by
  obtain ⟨heq, hsum⟩ := assignWeights_spec attrs rs w hne hnames hparse
  refine ⟨rs.map (resultWeight rs attrs w), heq, rfl, by simp, hsum, ?_⟩
  intro h
  subst h
  rw [show resultWeight rs [] w = fun _ => w / rs.length from rfl]
  exact List.map_const' rs _

theorem claim_C3_witness :
    ([cR1, cR2] ≠ []) ∧
    ∃ ws, AssignWeights [cR1, cR2] [("lang").data] 1 = some ws ∧
      ws = [cR1, cR2].map (resultWeight [cR1, cR2] [("lang").data] 1) ∧
      ws.length = [cR1, cR2].length ∧ ws.sum = 1 ∧
      ([("lang").data] = ([] : List Str) →
        ws = List.replicate [cR1, cR2].length ((1 : ℚ) / ([cR1, cR2].length : ℚ))) :=
  ⟨by simp, claim_C3 [cR1, cR2] [("lang").data] 1 (by simp) (by decide) (by decide)⟩

theorem claim_C3_counterexample :
    ∃ ws, AssignWeights [cR1, cR1] [("lang").data] 1 = some ws ∧
      ws.length = 1 ∧ ws.sum ≠ 1 := by
  have hsplit : SplitByAttr [cR1, cR1] (("lang").data) =
      some [(("en-de").data, [cR1, cR1])] := by decide
  have hinit : [cR1, cR1].foldl (fun d s => pyDictInsert d s.name (0 : ℚ)) [] =
      [(cR1.name, (0 : ℚ))] := by decide
  have hupd : ∀ y z : ℚ, pyDictInsert [(cR1.name, y)] cR1.name z = [(cR1.name, z)] := by
    intro y z
    unfold pyDictInsert
    rw [show alookup [(cR1.name, y)] cR1.name = some y from by
      unfold alookup
      rw [if_pos rfl]]
    rw [if_pos (by rfl : ((some y).isSome = true))]
    rw [List.map_cons, List.map_nil, if_pos rfl]
  have hleaf : ∀ w2 : ℚ, AssignWeights [cR1, cR1] [] w2 =
      some [w2 / ((2 : ℕ) : ℚ), w2 / ((2 : ℕ) : ℚ)] := by
    intro w2
    rw [AssignWeights]
    rw [if_neg (by decide : ¬ ([cR1, cR1].length = 0))]
    rfl
  have hcomp : AssignWeights [cR1, cR1] [("lang").data] 1 = some [1 / 2] := by
    rw [AssignWeights, hinit, hsplit]
    simp only [Option.bind_eq_bind, Option.some_bind]
    rw [ofoldlM]
    dsimp only
    rw [hleaf]
    simp only [Option.some_bind, Option.pure_def, ofoldlM]
    simp only [List.zip_cons_cons, List.zip_nil_right, List.foldl_cons, List.foldl_nil]
    rw [hupd, hupd]
    simp only [Option.some_bind, List.map_cons, List.map_nil]
    norm_num
  refine ⟨[1 / 2], hcomp, rfl, ?_⟩
  simp only [List.sum_cons, List.sum_nil, add_zero]
  norm_num

theorem alookup_some_mem {α : Type} (d : List (Str × α)) (k : Str) (v : α)
    (h : alookup d k = some v) : (k, v) ∈ d := by
  induction d with
  | nil => cases h
  | cons p rest ih =>
    by_cases hp : p.1 = k
    · rw [alookup, if_pos hp] at h
      have : p = (k, v) := by
        obtain ⟨p1, p2⟩ := p
        cases h
        cases hp
        rfl
      rw [← this]
      exact List.mem_cons_self p rest
    · rw [alookup, if_neg hp] at h
      exact List.mem_cons_of_mem p (ih h)

theorem ranksInv_step (P : List (Str × ℚ)) (d : List (Str × List ℚ)) (k : Str) (x : ℚ)
    (hinv : RanksInv P d) : RanksInv (P ++ [(k, x)]) (dictAppend d k x) := by
  obtain ⟨hnd, hfilt, hkeys⟩ := hinv
  unfold dictAppend
  by_cases hmem : (alookup d k).isSome
  · rw [if_pos hmem]
    have hkeep : (d.map (fun p => if p.1 = k then (p.1, p.2 ++ [x]) else p)).map
        (fun p => p.1) = d.map (fun p => p.1) := by
      rw [List.map_map]
      apply List.map_congr_left
      intro p _
      by_cases h : p.1 = k <;> simp [h]
    refine ⟨by rw [hkeep]; exact hnd, ?_, ?_⟩
    · intro p hp
      obtain ⟨q, hq, hqe⟩ := List.mem_map.mp hp
      rw [List.filter_append]
      by_cases h : q.1 = k
      · rw [if_pos h] at hqe
        subst hqe
        have h2 : [((k, x) : Str × ℚ)].filter (fun c => c.1 = q.1) = [(k, x)] := by
          simp [List.filter_cons, h]
        rw [h2, List.map_append, ← hfilt q hq]
        rfl
      · rw [if_neg h] at hqe
        subst hqe
        have h2 : [((k, x) : Str × ℚ)].filter (fun c => c.1 = q.1) = [] := by
          have : ¬ (k = q.1) := fun he => h he.symm
          simp [List.filter_cons, this]
        rw [h2, List.append_nil]
        exact hfilt q hq
    · intro w
      have hiff : (alookup (d.map (fun p => if p.1 = k then (p.1, p.2 ++ [x]) else p))
          w).isSome ↔ (alookup d w).isSome := by
        rw [alookup_isSome_iff, alookup_isSome_iff, hkeep]
      rw [hiff, hkeys w, List.map_append]
      constructor
      · intro h
        exact List.mem_append_left _ h
      · intro h
        rcases List.mem_append.mp h with h1 | h1
        · exact h1
        · have hw : w = k := by simpa using h1
          subst hw
          exact (hkeys w).mp hmem
  · rw [if_neg hmem]
    have hkk : k ∉ d.map (fun p => p.1) :=
      fun hm => hmem ((alookup_isSome_iff d k).mpr hm)
    have hnotin : k ∉ P.map (fun c => c.1) := fun hm => hmem ((hkeys k).mpr hm)
    refine ⟨?_, ?_, ?_⟩
    · rw [List.map_append, List.nodup_append]
      refine ⟨hnd, List.nodup_singleton k, ?_⟩
      intro a ha hb
      have hab : a = k := by simpa using hb
      exact hkk (hab ▸ ha)
    · intro p hp
      rcases List.mem_append.mp hp with h | h
      · rw [List.filter_append]
        have hpk : ¬ (k = p.1) :=
          fun he => hkk (he ▸ List.mem_map_of_mem (fun q => q.1) h)
        have h2 : [((k, x) : Str × ℚ)].filter (fun c => c.1 = p.1) = [] := by
          simp [List.filter_cons, hpk]
        rw [h2, List.append_nil]
        exact hfilt p h
      · have hpv : p = (k, [x]) := by simpa using h
        subst hpv
        rw [List.filter_append]
        have h0 : P.filter (fun c => c.1 = k) = [] := by
          rw [List.filter_eq_nil_iff]
          intro c hc
          simp only [decide_eq_true_eq]
          exact fun he => hnotin (he ▸ List.mem_map_of_mem (fun q => q.1) hc)
        rw [h0]
        simp [List.filter_cons]
    · intro w
      rw [alookup_append]
      rcases hlk : alookup d w with _ | val
      · constructor
        · intro hsome
          by_cases he : k = w
          · subst he
            rw [List.map_append]
            exact List.mem_append_right _ (by simp)
          · exfalso
            simp [alookup, he] at hsome
        · intro hw
          rw [List.map_append] at hw
          rcases List.mem_append.mp hw with h1 | h1
          · exfalso
            have h2 := (hkeys w).mpr h1
            rw [hlk] at h2
            simp at h2
          · have hw2 : w = k := by simpa using h1
            subst hw2
            simp [alookup]
      · constructor
        · intro _
          rw [List.map_append]
          exact List.mem_append_left _ ((hkeys w).mp (by rw [hlk]; rfl))
        · intro _
          rfl

theorem ranksInv_nil : RanksInv [] [] := by
  refine ⟨List.nodup_nil, by simp, ?_⟩
  intro k
  simp [alookup]

theorem ranks_fold_aux (C : List (Str × ℚ)) : ∀ (P : List (Str × ℚ))
    (d : List (Str × List ℚ)), RanksInv P d →
    RanksInv (P ++ C) (C.foldl (fun d2 c => dictAppend d2 c.1 c.2) d) := by
  induction C with
  | nil =>
    intro P d h
    simpa using h
  | cons c rest ih =>
    intro P d h
    have h2 : RanksInv (P ++ [c]) (dictAppend d c.1 c.2) := ranksInv_step P d c.1 c.2 h
    have h3 := ih (P ++ [c]) _ h2
    rw [List.foldl_cons]
    have he : (P ++ [c]) ++ rest = P ++ c :: rest := by simp
    rw [he] at h3
    exact h3

theorem nodup_filter_eq (l : List Str) (m : Str) (hnd : l.Nodup) (hm : m ∈ l) :
    l.filter (fun x => x = m) = [m] := by
  induction l with
  | nil => cases hm
  | cons a rest ih =>
    obtain ⟨hna, hrest⟩ := List.nodup_cons.mp hnd
    by_cases h : a = m
    · subst h
      have h0 : rest.filter (fun x => x = a) = [] := by
        rw [List.filter_eq_nil_iff]
        intro x hx
        simp only [decide_eq_true_eq]
        exact fun he => hna (he ▸ hx)
      simp [List.filter_cons, h0]
    · have hm2 : m ∈ rest := by
        rcases List.mem_cons.mp hm with h1 | h1
        · exact absurd h1.symm h
        · exact h1
      simp [List.filter_cons, h, ih hrest hm2]

theorem filter_flatMap {α β : Type} (L : List α) (f : α → List β) (p : β → Bool) :
    (L.flatMap f).filter p = L.flatMap (fun a => (f a).filter p) := by
  induction L with
  | nil => rfl
  | cons a rest ih =>
    rw [List.flatMap_cons, List.flatMap_cons, List.filter_append, ih]

theorem sum_ite_count {α : Type} (L : List α) (p : α → Prop) [DecidablePred p] :
    (L.map (fun a => if p a then (1 : ℕ) else 0)).sum = L.countP (fun a => p a) := by
  induction L with
  | nil => rfl
  | cons a rest ih =>
    rw [List.map_cons, List.sum_cons, List.countP_cons, ih]
    by_cases h : p a <;> simp [h, Nat.add_comm]

theorem flatMap_single {α β : Type} (L : List α) (g : α → β) :
    L.flatMap (fun a => [g a]) = L.map g := by
  induction L with
  | nil => rfl
  | cons a rest ih => rw [List.flatMap_cons, List.map_cons, ih]; rfl

/-- C6: on a non-empty result set (with each result's metric list free of
duplicates, as Python dict keys are), `AverageRanks` yields a mapping
whose keys are exactly the metrics appearing in every result, each
mapped to the weighted sum of its ranks across all results, in ascending
order of average rank; uniform `1/n` weights are used when none are
supplied. (Amended: the original claim ranged over every
`TaskSetResults`; the empty set both breaks the membership equivalence
vacuously and, with no weights supplied, divides by zero — see the
counterexample.) -/
theorem claim_C6 (rs : List TaskResults) (weights : Option (List ℚ)) (ws : List ℚ)
    (hne : rs ≠ [])
    (hmnd : ∀ r ∈ rs, r.metrics.Nodup)
    (hws : (weights = none ∧ ws = List.replicate rs.length ((1 : ℚ) / rs.length)) ∨
           (weights = some ws ∧ ws.length = rs.length)) :
    ∃ out, AverageRanks rs weights = some out ∧
      (∀ mt, mt ∈ out.map (fun p => p.1) ↔ ∀ r ∈ rs, mt ∈ r.metrics) ∧
      (∀ p ∈ out, p.2 = ((rs.zip ws).map (fun q => q.1.RankOf p.1 * q.2)).sum) ∧
      List.Sorted valLE out := by
  have hwlen : ws.length = rs.length := by
    rcases hws with ⟨_, hwr⟩ | ⟨_, hl⟩
    · rw [hwr, List.length_replicate]
    · exact hl
  have hzlen : (rs.zip ws).length = rs.length := by
    rw [List.length_zip, hwlen, Nat.min_self]
  have hres : AverageRanks rs weights = some (List.insertionSort valLE
      ((((rs.zip ws).foldl (fun d p =>
          p.1.metrics.foldl (fun d2 mt => dictAppend d2 mt (p.1.RankOf mt * p.2)) d)
        []).filter (fun p => p.2.length = rs.length)).map (fun p => (p.1, p.2.sum)))) := by
    rcases hws with ⟨hw0, hwr⟩ | ⟨hw0, _⟩
    · subst hw0
      subst hwr
      cases rs with
      | nil => exact absurd rfl hne
      | cons r rest => rfl
    · subst hw0
      rfl
  have hflat : (rs.zip ws).foldl (fun d p =>
      p.1.metrics.foldl (fun d2 mt => dictAppend d2 mt (p.1.RankOf mt * p.2)) d) [] =
      ((rs.zip ws).flatMap (fun q => q.1.metrics.map
        (fun mt => (mt, q.1.RankOf mt * q.2)))).foldl
        (fun d2 c => dictAppend d2 c.1 c.2) [] := by
    rw [foldl_flatMap]
    have hfn : (fun (d : List (Str × List ℚ)) (p : TaskResults × ℚ) =>
        p.1.metrics.foldl (fun d2 mt => dictAppend d2 mt (p.1.RankOf mt * p.2)) d) =
        (fun d q => (q.1.metrics.map (fun mt => (mt, q.1.RankOf mt * q.2))).foldl
          (fun d2 c => dictAppend d2 c.1 c.2) d) := by
      funext d q
      rw [List.foldl_map]
    rw [hfn]
  have hinv : RanksInv ((rs.zip ws).flatMap (fun q => q.1.metrics.map
      (fun mt => (mt, q.1.RankOf mt * q.2))))
      ((rs.zip ws).foldl (fun d p =>
        p.1.metrics.foldl (fun d2 mt => dictAppend d2 mt (p.1.RankOf mt * p.2)) d) []) := by
    rw [hflat]
    simpa using ranks_fold_aux _ [] [] ranksInv_nil
  obtain ⟨hrnd, hrfilt, hrkeys⟩ := hinv
  have hpair : ∀ r ∈ rs, ∃ w0, (r, w0) ∈ rs.zip ws := by
    intro r hr
    obtain ⟨i, hi, hgi⟩ := List.mem_iff_getElem.mp hr
    have hiw : i < ws.length := by rw [hwlen]; exact hi
    have hiz : i < (rs.zip ws).length := by rw [hzlen]; exact hi
    refine ⟨ws[i], ?_⟩
    have hz : (rs.zip ws)[i] = (rs[i], ws[i]) := List.getElem_zip ..
    have hm := List.getElem_mem hiz
    rw [hz, hgi] at hm
    exact hm
  have hpr : ∀ (m : Str), ∀ q ∈ rs.zip ws,
      ((q.1.metrics.map (fun mt => (mt, q.1.RankOf mt * q.2))).filter
        (fun c => c.1 = m)) =
        if m ∈ q.1.metrics then [(m, q.1.RankOf m * q.2)] else [] := by
    intro m q hq
    obtain ⟨r0, w0⟩ := q
    have hq1 : r0 ∈ rs := (List.mem_zip hq).1
    have hqnd : r0.metrics.Nodup := hmnd r0 hq1
    rw [List.filter_map]
    by_cases hm : m ∈ r0.metrics
    · rw [if_pos hm]
      rw [show ((fun c : Str × ℚ => decide (c.1 = m)) ∘
          (fun mt => (mt, TaskResults.RankOf r0 mt * w0))) =
          (fun mt => decide (mt = m)) from rfl]
      rw [nodup_filter_eq r0.metrics m hqnd hm]
      rfl
    · rw [if_neg hm]
      rw [show ((fun c : Str × ℚ => decide (c.1 = m)) ∘
          (fun mt => (mt, TaskResults.RankOf r0 mt * w0))) =
          (fun mt => decide (mt = m)) from rfl]
      rw [show r0.metrics.filter (fun mt => mt = m) = [] from by
        rw [List.filter_eq_nil_iff]
        intro mt hmt
        simp only [decide_eq_true_eq]
        exact fun he => hm (he ▸ hmt)]
      rfl
  have hCfilter_all : ∀ m, (∀ r ∈ rs, m ∈ r.metrics) →
      ((rs.zip ws).flatMap (fun q => q.1.metrics.map
        (fun mt => (mt, q.1.RankOf mt * q.2)))).filter (fun c => c.1 = m) =
      (rs.zip ws).map (fun q => (m, q.1.RankOf m * q.2)) := by
    intro m hall
    rw [filter_flatMap]
    rw [flatMap_congr _ _ (fun q => [(m, q.1.RankOf m * q.2)]) ?_]
    · exact flatMap_single _ _
    · intro q hq
      rw [hpr m q hq]
      obtain ⟨r0, w0⟩ := q
      rw [if_pos (hall r0 (List.mem_zip hq).1)]
  have hCfilter_len : ∀ m, (((rs.zip ws).flatMap (fun q => q.1.metrics.map
      (fun mt => (mt, q.1.RankOf mt * q.2)))).filter (fun c => c.1 = m)).length =
      (rs.zip ws).countP (fun q => m ∈ q.1.metrics) := by
    intro m
    rw [filter_flatMap, List.length_flatMap]
    rw [List.map_congr_left (l := rs.zip ws)
      (f := List.length ∘ fun q => ((q.1.metrics.map
        (fun mt => (mt, q.1.RankOf mt * q.2))).filter (fun c => c.1 = m)))
      (g := fun q => if m ∈ q.1.metrics then 1 else 0) ?_]
    · exact sum_ite_count _ _
    · intro q hq
      simp only [Function.comp]
      rw [hpr m q hq]
      by_cases hm : m ∈ q.1.metrics <;> simp [hm]
  have hlen_iff : ∀ m, ((((rs.zip ws).flatMap (fun q => q.1.metrics.map
      (fun mt => (mt, q.1.RankOf mt * q.2)))).filter
        (fun c => c.1 = m)).length = rs.length ↔ ∀ r ∈ rs, m ∈ r.metrics) := by
    intro m
    rw [hCfilter_len, ← hzlen]
    constructor
    · intro h r hr
      have hall := List.countP_eq_length.mp h
      obtain ⟨w0, hw0⟩ := hpair r hr
      have := hall (r, w0) hw0
      simpa using this
    · intro h
      apply List.countP_eq_length.mpr
      intro q hq
      obtain ⟨r0, w0⟩ := q
      have := h r0 (List.mem_zip hq).1
      simpa using this
  refine ⟨_, hres, ?_, ?_, List.sorted_insertionSort valLE _⟩
  · intro mt
    rw [(((List.perm_insertionSort valLE _)).map (fun p => p.1)).mem_iff]
    rw [List.map_map]
    constructor
    · intro h
      obtain ⟨p, hp, hp1⟩ := List.mem_map.mp h
      obtain ⟨hpD, hplen⟩ := List.mem_filter.mp hp
      have hval := hrfilt p hpD
      have hlen : p.2.length = rs.length := by simpa using hplen
      rw [hval, List.length_map] at hlen
      have hall := (hlen_iff p.1).mp hlen
      have hp1b : p.1 = mt := hp1
      exact hp1b ▸ hall
    · intro hall
      obtain ⟨r0, hr0⟩ := List.exists_mem_of_ne_nil rs hne
      obtain ⟨w0, hw0⟩ := hpair r0 hr0
      have hmt0 : mt ∈ r0.metrics := hall r0 hr0
      have hmtC : mt ∈ ((rs.zip ws).flatMap (fun q => q.1.metrics.map
          (fun mt => (mt, q.1.RankOf mt * q.2)))).map (fun c => c.1) := by
        apply List.mem_map.mpr
        refine ⟨(mt, r0.RankOf mt * w0), ?_, rfl⟩
        apply List.mem_flatMap.mpr
        exact ⟨(r0, w0), hw0, List.mem_map_of_mem _ hmt0⟩
      have hsome := (hrkeys mt).mpr hmtC
      obtain ⟨l, hl⟩ := Option.isSome_iff_exists.mp hsome
      have hmem := alookup_some_mem _ mt l hl
      have hval := hrfilt (mt, l) hmem
      have hlen : l.length = rs.length := by
        have := congrArg List.length hval
        simp only [List.length_map] at this
        rw [this]
        exact (hlen_iff mt).mpr hall
      apply List.mem_map.mpr
      refine ⟨(mt, l), ?_, rfl⟩
      apply List.mem_filter.mpr
      exact ⟨hmem, by simpa using hlen⟩
  · intro p hp
    have hp2 := (List.perm_insertionSort valLE _).mem_iff.mp hp
    obtain ⟨q, hq, hqe⟩ := List.mem_map.mp hp2
    obtain ⟨hqD, hqlen⟩ := List.mem_filter.mp hq
    have hval := hrfilt q hqD
    have hlen : q.2.length = rs.length := by simpa using hqlen
    have hall : ∀ r ∈ rs, q.1 ∈ r.metrics := by
      apply (hlen_iff q.1).mp
      rw [← List.length_map _ (fun c : Str × ℚ => c.2), ← hval]
      exact hlen
    have hsum : q.2 = (rs.zip ws).map (fun z => z.1.RankOf q.1 * z.2) := by
      rw [hval, hCfilter_all q.1 hall, List.map_map]
      rfl
    rw [← hqe]
    simp only
    rw [hsum]

theorem claim_C6_witness :
    ([cR1, cR2] ≠ [] ∧ (∀ r ∈ [cR1, cR2], r.metrics.Nodup)) ∧
    ∃ out, AverageRanks [cR1, cR2] none = some out ∧
      (∀ mt, mt ∈ out.map (fun p => p.1) ↔ ∀ r ∈ [cR1, cR2], mt ∈ r.metrics) ∧
      (∀ p ∈ out, p.2 = (([cR1, cR2].zip
        (List.replicate [cR1, cR2].length ((1 : ℚ) / [cR1, cR2].length))).map
          (fun q => q.1.RankOf p.1 * q.2)).sum) ∧
      List.Sorted valLE out :=
  ⟨⟨by simp, by decide⟩,
   claim_C6 [cR1, cR2] none
     (List.replicate [cR1, cR2].length ((1 : ℚ) / [cR1, cR2].length))
     (by simp) (by decide) (Or.inl ⟨rfl, rfl⟩)⟩

theorem claim_C6_counterexample :
    AverageRanks [] (some []) = some [] ∧
    (∀ r ∈ ([] : List TaskResults), (("m1").data) ∈ r.metrics) ∧
    (("m1").data) ∉ (([] : List (Str × ℚ)).map (fun p => p.1)) :=
  ⟨rfl, by simp, by simp⟩

/-- C10: on an empty `TaskSetResults`, `AssignWeights` with an empty
attribute list and `AverageRanks` with no weights supplied both divide
by the zero result count and raise (modelled as `none`); on every
non-empty `TaskSetResults` both succeed. -/
theorem claim_C10 :
    (AssignWeights ([] : List TaskResults) [] 1 = none) ∧
    (AverageRanks ([] : List TaskResults) none = none) ∧
    (∀ (rs : List TaskResults) (w : ℚ), rs ≠ [] → (AssignWeights rs [] w).isSome) ∧
    (∀ rs : List TaskResults, rs ≠ [] → (AverageRanks rs none).isSome) := by
  refine ⟨?_, ?_, ?_, ?_⟩
  · rw [AssignWeights]
    rfl
  · rfl
  · intro rs w hne
    cases rs with
    | nil => exact absurd rfl hne
    | cons r rest =>
      rw [AssignWeights]
      rfl
  · intro rs hne
    cases rs with
    | nil => exact absurd rfl hne
    | cons r rest => rfl

theorem claim_C10_witness :
    ([cR1] ≠ []) ∧ (AssignWeights [cR1] [] 1).isSome ∧
    (AverageRanks [cR1] none).isSome :=
  ⟨by simp, claim_C10.2.2.1 [cR1] 1 (by simp), claim_C10.2.2.2 [cR1] (by simp)⟩

end MTME
